import Mathlib

/-!
Shallow embedding of the core of `src/nanopore.py` (Nano-Align):
the affine-gap global alignment engine `glob_affine_gap`, the gap-filling
interpolator `fill_gaps`, and the theoretical-signal builder
`theoretical_signal`, together with a spec-side model of affine-gap
alignment scoring used to state optimality claims.

Numeric sequences are embedded over an arbitrary linear ordered
commutative ring (this covers `ℝ`, and the core uses no division;
concrete evaluations instantiate it at `ℤ`); the float value `-inf`
used to initialise the score matrices is embedded as `⊥ : WithBot α`
(the code never produces `+inf`, and `-inf + x = -inf` matches
`⊥ + x = ⊥`).  The gap marker `None` is embedded as `none : Option α`.
`xrange` loop semantics, Python-2 integer division (`/` on ints) and
list slicing are embedded explicitly where they occur.
-/

section Core

variable {α : Type} [LinearOrderedCommRing α]

/-- The boundary seeding formula `gap_open + (i - 1) * gap_ext` used for
`s_x[i][0]` and `s_y[0][j]` in `glob_affine_gap` (nanopore.py lines 137-142).
Note `bnd g e 0 = g - e`. -/
def bnd (g e : α) (i : ℕ) : α := g + ((i : α) - 1) * e

/-- Row 0 of the triple `(s_m, s_x, s_y)` of score matrices after
initialisation: `s_m[0][0] = 0`, `s_m[0][j] = -inf` for `j ≥ 1`,
`s_x[0][0] = bnd 0`, `s_x[0][j] = -inf` for `j ≥ 1`,
`s_y[0][j] = bnd j` for all `j` (nanopore.py lines 129-142). -/
def dpRow0 (g e : α) : ℕ → WithBot α × WithBot α × WithBot α
  | 0 => ((0 : α), (bnd g e 0 : α), (bnd g e 0 : α))
  | j + 1 => (⊥, ⊥, (bnd g e (j + 1) : α))

/-- One row of the dynamic programme: given row `i` (`prev`), the
element `xi = seq1[i]`, and the boundary cell for column 0 of row
`i + 1`, compute row `i + 1`.  The interior cell `(i+1, j+1)` is
`s_m = max(lst_m)`, `s_x = max(lst_x)`, `s_y = max(lst_y)` exactly as
in nanopore.py lines 144-160: `d` is cell `(i, j)`, `u` is cell
`(i, j+1)`, `l` is cell `(i+1, j)`. -/
def dpNext (ys : List α) (g e : α) (f : α → α → α) (xi : α)
    (prev : ℕ → WithBot α × WithBot α × WithBot α)
    (bcell : WithBot α × WithBot α × WithBot α) :
    ℕ → WithBot α × WithBot α × WithBot α
  | 0 => bcell
  | j + 1 =>
    let d := prev j
    let u := prev (j + 1)
    let l := dpNext ys g e f xi prev bcell j
    let dl : WithBot α := (f xi (ys.getD j 0) : α)
    (max (max (d.1 + dl) (d.2.1 + dl)) (d.2.2 + dl),
     max (max (u.1 + (g : WithBot α)) (u.2.1 + (e : WithBot α))) (u.2.2 + (g : WithBot α)),
     max (max (l.1 + (g : WithBot α)) (l.2.1 + (g : WithBot α))) (l.2.2 + (e : WithBot α)))

/-- The filled score matrices of `glob_affine_gap`, as a function of the
cell index: `dp xs ys g e f i j = (s_m[i][j], s_x[i][j], s_y[i][j])`. -/
def dp (xs ys : List α) (g e : α) (f : α → α → α) :
    ℕ → ℕ → WithBot α × WithBot α × WithBot α
  | 0 => dpRow0 g e
  | i + 1 => dpNext ys g e f (xs.getD i 0) (dp xs ys g e f i)
      (⊥, (bnd g e (i + 1) : α), ⊥)

/-- `s_m[i][j]`: best score of an alignment of the length-`i` prefix of
`seq1` with the length-`j` prefix of `seq2` ending in a match state. -/
def s_m (xs ys : List α) (g e : α) (f : α → α → α) (i j : ℕ) : WithBot α :=
  (dp xs ys g e f i j).1

/-- `s_x[i][j]`: DP score matrix for the state consuming `seq1` only. -/
def s_x (xs ys : List α) (g e : α) (f : α → α → α) (i j : ℕ) : WithBot α :=
  (dp xs ys g e f i j).2.1

/-- `s_y[i][j]`: DP score matrix for the state consuming `seq2` only. -/
def s_y (xs ys : List α) (g e : α) (f : α → α → α) (i j : ℕ) : WithBot α :=
  (dp xs ys g e f i j).2.2

/-- `lst.index(max(lst))` for a three-element list `[a, b, c]`:
the index of the first occurrence of the maximum. -/
def idx3 (a b c : WithBot α) : ℕ :=
  if b ≤ a ∧ c ≤ a then 0 else if c ≤ b then 1 else 2

/-- `max` of a three-element candidate list. -/
def max3 (a b c : WithBot α) : WithBot α := max (max a b) c

/-- Backpointer matrix `b_m`: zero-initialised, interior cell `(i+1, j+1)`
is `lst_m.index(max(lst_m))` (nanopore.py lines 132, 148-150, 162). -/
def b_m (xs ys : List α) (g e : α) (f : α → α → α) : ℕ → ℕ → ℕ
  | i + 1, j + 1 =>
    let d := dp xs ys g e f i j
    let dl : WithBot α := (f (xs.getD i 0) (ys.getD j 0) : α)
    idx3 (d.1 + dl) (d.2.1 + dl) (d.2.2 + dl)
  | _, _ => 0

/-- Backpointer matrix `b_x`: `b_x[i][0] = 1` for every `i` (boundary
loop, line 139), zero elsewhere on row 0, interior cell `(i+1, j+1)` is
`lst_x.index(max(lst_x))` over the cell `(i, j+1)` (lines 151-153, 163). -/
def b_x (xs ys : List α) (g e : α) (f : α → α → α) : ℕ → ℕ → ℕ
  | _, 0 => 1
  | 0, _ + 1 => 0
  | i + 1, j + 1 =>
    let u := dp xs ys g e f i (j + 1)
    idx3 (u.1 + (g : WithBot α)) (u.2.1 + (e : WithBot α)) (u.2.2 + (g : WithBot α))

/-- Backpointer matrix `b_y`: `b_y[0][j] = 2` for every `j` (boundary
loop, line 142), zero elsewhere on column 0, interior cell `(i+1, j+1)`
is `lst_y.index(max(lst_y))` over the cell `(i+1, j)` (lines 154-156, 164). -/
def b_y (xs ys : List α) (g e : α) (f : α → α → α) : ℕ → ℕ → ℕ
  | 0, _ => 2
  | _ + 1, 0 => 0
  | i + 1, j + 1 =>
    let l := dp xs ys g e f (i + 1) j
    idx3 (l.1 + (g : WithBot α)) (l.2.1 + (g : WithBot α)) (l.2.2 + (e : WithBot α))

/-- The backtracking loop of `glob_affine_gap` (nanopore.py lines
166-188), with the current matrix encoded as an index `st` into
`all_mat = [s_m, s_x, s_y]` (0, 1, 2) and an explicit fuel argument
bounding the number of iterations; the loop condition
`while i > 0 or j > 0` is `¬(i = 0 ∧ j = 0)`.  The emitted pair lists
are in traversal order (most recent cell first); `glob_affine_gap`
reverses them at the end. -/
def tb (xs ys : List α) (bm bx bY : ℕ → ℕ → ℕ) :
    ℕ → ℕ → ℕ → ℕ → List (Option α) × List (Option α)
  | 0, _, _, _ => ([], [])
  | fuel + 1, st, i, j =>
    if i = 0 ∧ j = 0 then ([], [])
    else if st = 0 then
      let p := tb xs ys bm bx bY fuel (bm i j) (i - 1) (j - 1)
      (some (xs.getD (i - 1) 0) :: p.1, some (ys.getD (j - 1) 0) :: p.2)
    else if st = 1 then
      let p := tb xs ys bm bx bY fuel (bx i j) (i - 1) j
      (some (xs.getD (i - 1) 0) :: p.1, none :: p.2)
    else
      let p := tb xs ys bm bx bY fuel (bY i j) i (j - 1)
      (none :: p.1, some (ys.getD (j - 1) 0) :: p.2)

/-- `glob_affine_gap(seq1, seq2, gap_open, gap_ext, match_fun)`
(nanopore.py lines 125-189): returns `(score, res1, res2)` where the
final state is the first of `[s_m, s_x, s_y]` attaining the maximal
value at `(len1, len2)` (Python `max` with a key returns the first
maximiser), `score` is that matrix's value there, and `res1, res2` are
the gap-annotated sequences produced by backtracking (gap = `none`). -/
def glob_affine_gap (xs ys : List α) (g e : α) (f : α → α → α) :
    WithBot α × List (Option α) × List (Option α) :=
  let n1 := xs.length
  let n2 := ys.length
  let c := dp xs ys g e f n1 n2
  let st := idx3 c.1 c.2.1 c.2.2
  let score := if st = 0 then c.1 else if st = 1 then c.2.1 else c.2.2
  let p := tb xs ys (b_m xs ys g e f) (b_x xs ys g e f) (b_y xs ys g e f)
      (n1 + n2) st n1 n2
  (score, p.1.reverse, p.2.reverse)

/-- Python-2 `xrange(a, b)` over naturals with `a ≤ b` intended:
the list `[a, a+1, ..., b-1]`. -/
def pyRangeN (a b : ℕ) : List ℕ := (List.range (b - a)).map (fun k => a + k)

/-- The inner block-write loop of `fill_gaps` (nanopore.py lines 92-94):
`for j in xrange(open_gap, i + 1): rate = (j - open_gap) / (i - open_gap);
res[j] = left + (right - left) * rate`.  The source runs under Python 2
(`xrange`, `print_function`), where `/` on ints is integer (floor)
division; both operands are non-negative here, so it is embedded as
natural-number division. -/
def fillRun (og i : ℕ) (left right : α) (res : List α) : List α :=
  (pyRangeN og (i + 1)).foldl
    (fun r j => r.set j (left + (right - left) * (((j - og) / (i - og) : ℕ) : α)))
    res

/-- One iteration of the main loop of `fill_gaps` (nanopore.py lines
85-100), acting on the state `(open_gap, res)` at index `i`. -/
def fillStep (al : List (Option α)) (st : Option ℕ × List α) (i : ℕ) :
    Option ℕ × List α :=
  match st.1 with
  | some og =>
    match al.getD i none with
    | some v => (none, fillRun og i ((al.getD og none).getD v) v st.2)
    | none => st
  | none =>
    match al.getD i none with
    | some v => (none, st.2.set i v)
    | none => (some (i - 1), st.2)

/-- `fill_gaps(alignment)` (nanopore.py lines 81-101): `res = np.zeros`,
`open_gap = None if alignment[0] is not None else 0`, then the loop over
all indices; returns `res`.  (On the empty list the source would raise
an IndexError at `alignment[0]`; the embedding returns `[]`, and no
claim touches that case.) -/
def fill_gaps (al : List (Option α)) : List α :=
  let og0 : Option ℕ := if (al.getD 0 none).isSome then none else some 0
  ((List.range al.length).foldl (fillStep al) (og0, List.replicate al.length 0)).2

end Core

/-- Python `xrange(a, b)` over integers: `[a, a+1, ..., b-1]`, empty
when `b ≤ a`. -/
def pyRange (a b : ℤ) : List ℤ := (List.range (b - a).toNat).map (fun (k : ℕ) => a + (k : ℤ))

/-- The per-residue volume table `VOLUMES` of `theoretical_signal`
(nanopore.py lines 55-59). -/
def VOLUMES : Char → Option ℚ
  | 'I' => some 0.1688 | 'F' => some 0.2034 | 'V' => some 0.1417
  | 'L' => some 0.1679 | 'W' => some 0.2376 | 'M' => some 0.1708
  | 'A' => some 0.0915 | 'G' => some 0.0664 | 'C' => some 0.1056
  | 'Y' => some 0.2036 | 'P' => some 0.1293 | 'T' => some 0.1221
  | 'S' => some 0.0991 | 'H' => some 0.1673 | 'E' => some 0.1551
  | 'N' => some 0.1359 | 'Q' => some 0.1611 | 'D' => some 0.1245
  | 'K' => some 0.1713 | 'R' => some 0.2021
  | _ => none

/-- `theoretical_signal(peptide, window_size)` (nanopore.py lines 54-68):
`for i in xrange(-window_size + 1, len(peptide) - 1)`, window slice
`peptide[max(i,0) : min(i + window_size, len(peptide))]`, value
`math.sqrt(np.mean(volumes ** 2))` (root of the mean of the squared
volumes).  Residues absent from `VOLUMES` are embedded with a default
volume 0 (the source would fail there; all claims assume known residues). -/
noncomputable def theoretical_signal (peptide : List Char) (window_size : ℕ) : List ℝ :=
  (pyRange (-(window_size : ℤ) + 1) ((peptide.length : ℤ) - 1)).map (fun i =>
    let s := max i 0
    let t := min (i + (window_size : ℤ)) (peptide.length : ℤ)
    let vols : List ℚ := ((peptide.drop s.toNat).take (t - s).toNat).map
      (fun c => (VOLUMES c).getD 0)
    Real.sqrt ((vols.map (fun v => ((v : ℝ)) ^ 2)).sum / vols.length))

/-! ### Spec-side model of affine-gap alignment scoring

A global alignment of two sequences is a list of moves, recorded most
recent first (matching the traceback order): `mm` aligns one element of
each sequence, `gx` consumes one element of `seq1` against a gap, `gy`
consumes one element of `seq2` against a gap.  Its score, following the
spec's cost model, is the sum of `match_fun` over aligned pairs plus,
for each maximal gap run of length `L` on either side,
`gap_open + (L - 1) * gap_ext` — each gap move costs `gap_ext` when the
move made just before it (the next entry in the reversed list) extends
the same-side run, and `gap_open` when it starts a new run. -/

/-- One column of a global alignment. -/
inductive Move : Type
  | mm : Move
  | gx : Move
  | gy : Move
deriving DecidableEq, Repr

/-- Number of `seq1` elements consumed by an alignment (`mm` and `gx`). -/
def cons1 : List Move → ℕ
  | [] => 0
  | Move.gy :: r => cons1 r
  | _ :: r => cons1 r + 1

/-- Number of `seq2` elements consumed by an alignment (`mm` and `gy`). -/
def cons2 : List Move → ℕ
  | [] => 0
  | Move.gx :: r => cons2 r
  | _ :: r => cons2 r + 1

/-- `Valid al i j`: `al` is a global alignment of the length-`i` prefix
of `seq1` with the length-`j` prefix of `seq2`. -/
def Valid (al : List Move) (i j : ℕ) : Prop := cons1 al = i ∧ cons2 al = j

instance (al : List Move) (i j : ℕ) : Decidable (Valid al i j) := by
  unfold Valid; infer_instance

section SpecScore

variable {α : Type} [LinearOrderedCommRing α]

/-- Spec-side score of an alignment `al` (most recent move first) of the
length-`i` prefix of `xs` with the length-`j` prefix of `ys`: matched
pairs contribute `f`, a gap move contributes `e` if it extends the
previous same-side gap run and `g` if it opens a run.  A maximal run of
`L` same-side gap moves thus contributes `g + (L - 1) * e`. -/
def rscore (xs ys : List α) (g e : α) (f : α → α → α) :
    List Move → ℕ → ℕ → α
  | [], _, _ => 0
  | Move.mm :: r, i, j =>
    rscore xs ys g e f r (i - 1) (j - 1) + f (xs.getD (i - 1) 0) (ys.getD (j - 1) 0)
  | Move.gx :: r, i, j =>
    rscore xs ys g e f r (i - 1) j + (if r.head? = some Move.gx then e else g)
  | Move.gy :: r, i, j =>
    rscore xs ys g e f r i (j - 1) + (if r.head? = some Move.gy then e else g)

end SpecScore

/-- All global alignments of a pair of prefixes of lengths `(i, j)`,
enumerated with an explicit fuel (use `fuel = i + j`). -/
def allValidF : ℕ → ℕ → ℕ → List (List Move)
  | 0, i, j => if i = 0 ∧ j = 0 then [[]] else []
  | fuel + 1, i, j =>
    if i = 0 ∧ j = 0 then [[]]
    else
      (if 1 ≤ i ∧ 1 ≤ j then (allValidF fuel (i - 1) (j - 1)).map (Move.mm :: ·) else [])
        ++ (if 1 ≤ i then (allValidF fuel (i - 1) j).map (Move.gx :: ·) else [])
        ++ (if 1 ≤ j then (allValidF fuel i (j - 1)).map (Move.gy :: ·) else [])

/-- The spec's optimal score: the maximum of the spec-side score over
all global alignments of `xs` with `ys` (as `WithBot`, `⊥` for an empty
enumeration, which never occurs). -/
def specBestScore {α : Type} [LinearOrderedCommRing α]
    (xs ys : List α) (g e : α) (f : α → α → α) : WithBot α :=
  ((allValidF (xs.length + ys.length) xs.length ys.length).map
    (fun al => rscore xs ys g e f al xs.length ys.length)).foldr
    (fun (v : α) acc => max ((v : WithBot α)) acc) ⊥

/-! ### Equation lemmas for the DP matrices and basic order facts -/

section Eqns

variable {α : Type} [LinearOrderedCommRing α] (xs ys : List α) (g e : α) (f : α → α → α)

theorem s_m_zero_zero : s_m xs ys g e f 0 0 = ((0 : α) : WithBot α) := rfl

theorem s_x_zero_zero : s_x xs ys g e f 0 0 = ((bnd g e 0 : α) : WithBot α) := rfl

theorem s_y_zero_zero : s_y xs ys g e f 0 0 = ((bnd g e 0 : α) : WithBot α) := rfl

theorem s_m_zero_succ (j : ℕ) : s_m xs ys g e f 0 (j + 1) = ⊥ := rfl

theorem s_x_zero_succ (j : ℕ) : s_x xs ys g e f 0 (j + 1) = ⊥ := rfl

theorem s_m_succ_zero (i : ℕ) : s_m xs ys g e f (i + 1) 0 = ⊥ := rfl

theorem s_y_succ_zero (i : ℕ) : s_y xs ys g e f (i + 1) 0 = ⊥ := rfl

/-- The boundary column: `s_x[i][0] = gap_open + (i - 1) * gap_ext` for
every row index `i` (including `i = 0`). -/
theorem s_x_bdry (i : ℕ) : s_x xs ys g e f i 0 = ((bnd g e i : α) : WithBot α) := by
  cases i <;> rfl

/-- The boundary row: `s_y[0][j] = gap_open + (j - 1) * gap_ext` for
every column index `j` (including `j = 0`). -/
theorem s_y_bdry (j : ℕ) : s_y xs ys g e f 0 j = ((bnd g e j : α) : WithBot α) := by
  cases j <;> rfl

theorem s_m_succ_succ (i j : ℕ) :
    s_m xs ys g e f (i + 1) (j + 1) =
      max3 (s_m xs ys g e f i j + ((f (xs.getD i 0) (ys.getD j 0) : α) : WithBot α))
        (s_x xs ys g e f i j + ((f (xs.getD i 0) (ys.getD j 0) : α) : WithBot α))
        (s_y xs ys g e f i j + ((f (xs.getD i 0) (ys.getD j 0) : α) : WithBot α)) := rfl

theorem s_x_succ_succ (i j : ℕ) :
    s_x xs ys g e f (i + 1) (j + 1) =
      max3 (s_m xs ys g e f i (j + 1) + (g : WithBot α))
        (s_x xs ys g e f i (j + 1) + (e : WithBot α))
        (s_y xs ys g e f i (j + 1) + (g : WithBot α)) := rfl

theorem s_y_succ_succ (i j : ℕ) :
    s_y xs ys g e f (i + 1) (j + 1) =
      max3 (s_m xs ys g e f (i + 1) j + (g : WithBot α))
        (s_x xs ys g e f (i + 1) j + (g : WithBot α))
        (s_y xs ys g e f (i + 1) j + (e : WithBot α)) := rfl

theorem b_m_succ_succ (i j : ℕ) :
    b_m xs ys g e f (i + 1) (j + 1) =
      idx3 (s_m xs ys g e f i j + ((f (xs.getD i 0) (ys.getD j 0) : α) : WithBot α))
        (s_x xs ys g e f i j + ((f (xs.getD i 0) (ys.getD j 0) : α) : WithBot α))
        (s_y xs ys g e f i j + ((f (xs.getD i 0) (ys.getD j 0) : α) : WithBot α)) := rfl

theorem b_x_bdry (i : ℕ) : b_x xs ys g e f i 0 = 1 := by cases i <;> rfl

theorem b_y_bdry (j : ℕ) : b_y xs ys g e f 0 j = 2 := by cases j <;> rfl

theorem b_x_succ_succ (i j : ℕ) :
    b_x xs ys g e f (i + 1) (j + 1) =
      idx3 (s_m xs ys g e f i (j + 1) + (g : WithBot α))
        (s_x xs ys g e f i (j + 1) + (e : WithBot α))
        (s_y xs ys g e f i (j + 1) + (g : WithBot α)) := rfl

theorem b_y_succ_succ (i j : ℕ) :
    b_y xs ys g e f (i + 1) (j + 1) =
      idx3 (s_m xs ys g e f (i + 1) j + (g : WithBot α))
        (s_x xs ys g e f (i + 1) j + (g : WithBot α))
        (s_y xs ys g e f (i + 1) j + (e : WithBot α)) := rfl

end Eqns

section OrderFacts

variable {α : Type} [LinearOrderedCommRing α]

theorem le_max3_left (a b c : WithBot α) : a ≤ max3 a b c :=
  le_trans (le_max_left a b) (le_max_left _ c)

theorem le_max3_mid (a b c : WithBot α) : b ≤ max3 a b c :=
  le_trans (le_max_right a b) (le_max_left _ c)

theorem le_max3_right (a b c : WithBot α) : c ≤ max3 a b c := le_max_right _ c

theorem max3_le {a b c d : WithBot α} (h1 : a ≤ d) (h2 : b ≤ d) (h3 : c ≤ d) :
    max3 a b c ≤ d := max_le (max_le h1 h2) h3

theorem max3_choice (a b c : WithBot α) :
    max3 a b c = a ∨ max3 a b c = b ∨ max3 a b c = c := by
  unfold max3
  rcases max_choice (max a b) c with h | h
  · rcases max_choice a b with h2 | h2
    · exact Or.inl (h.trans h2)
    · exact Or.inr (Or.inl (h.trans h2))
  · exact Or.inr (Or.inr h)

theorem max3_ne_bot_of_left {a : WithBot α} (b c : WithBot α) (h : a ≠ ⊥) :
    max3 a b c ≠ ⊥ := by
  intro hbot
  exact h (le_bot_iff.mp (hbot ▸ le_max3_left a b c))

theorem max3_ne_bot_of_mid {b : WithBot α} (a c : WithBot α) (h : b ≠ ⊥) :
    max3 a b c ≠ ⊥ := by
  intro hbot
  exact h (le_bot_iff.mp (hbot ▸ le_max3_mid a b c))

theorem max3_ne_bot_of_right {c : WithBot α} (a b : WithBot α) (h : c ≠ ⊥) :
    max3 a b c ≠ ⊥ := by
  intro hbot
  exact h (le_bot_iff.mp (hbot ▸ le_max3_right a b c))

theorem idx3_eq_zero_of {a b c : WithBot α} (h1 : b ≤ a) (h2 : c ≤ a) :
    idx3 a b c = 0 := by simp [idx3, h1, h2]

theorem idx3_bot_bot {c : WithBot α} (hc : c ≠ ⊥) : idx3 (⊥ : WithBot α) ⊥ c = 2 := by
  have h : ¬ c ≤ (⊥ : WithBot α) := fun h => hc (le_bot_iff.mp h)
  simp [idx3, h]

theorem idx3_bot_mid_bot {b : WithBot α} (hb : b ≠ ⊥) : idx3 (⊥ : WithBot α) b ⊥ = 1 := by
  have h : ¬ b ≤ (⊥ : WithBot α) := fun h => hb (le_bot_iff.mp h)
  simp [idx3, h]

/-- The score selected by Python's `max(s_m, s_x, s_y, key=...)[len1][len2]`
is the maximum of the three candidate values. -/
theorem pick_idx3_eq_max3 (a b c : WithBot α) :
    (if idx3 a b c = 0 then a else if idx3 a b c = 1 then b else c) = max3 a b c := by
  unfold idx3 max3
  by_cases h1 : b ≤ a ∧ c ≤ a
  · rw [if_pos h1]
    norm_num
    rw [max_eq_left h1.1, max_eq_left h1.2]
  · rw [if_neg h1]
    by_cases h2 : c ≤ b
    · rw [if_pos h2]
      norm_num
      have hab : a ≤ b := le_of_not_le (fun hba => h1 ⟨hba, h2.trans hba⟩)
      rw [max_eq_right hab, max_eq_left h2]
    · rw [if_neg h2]
      norm_num
      have hbc : b ≤ c := le_of_not_le h2
      have hac : a ≤ c := by
        by_contra hca
        have hca2 : c ≤ a := le_of_not_le hca
        exact h1 ⟨hbc.trans hca2, hca2⟩
      exact ⟨hac, hbc⟩

theorem glob_score_eq_max3 (xs ys : List α) (g e : α) (f : α → α → α) :
    (glob_affine_gap xs ys g e f).1 =
      max3 (s_m xs ys g e f xs.length ys.length)
        (s_x xs ys g e f xs.length ys.length)
        (s_y xs ys g e f xs.length ys.length) :=
  pick_idx3_eq_max3 _ _ _

end OrderFacts

/-! ### Helper lemmas for `fill_gaps` on all-gap input -/

section FillGaps

variable {α : Type} [LinearOrderedCommRing α]

theorem getD_replicate_none (n i : ℕ) :
    (List.replicate n (none : Option α)).getD i none = none := by
  rcases lt_or_ge i n with h | h
  · rw [List.getD_eq_getElem _ _ (by simpa using h)]
    simp
  · rw [List.getD_eq_default _ _ (by simpa using h)]

theorem fillStep_all_gap (n : ℕ) (og : ℕ) (res : List α) (i : ℕ) :
    fillStep (List.replicate n (none : Option α)) (some og, res) i = (some og, res) := by
  unfold fillStep
  simp [getD_replicate_none]

theorem foldl_fillStep_all_gap (n : ℕ) (l : List ℕ) (og : ℕ) (res : List α) :
    l.foldl (fillStep (List.replicate n (none : Option α))) (some og, res) = (some og, res) := by
  induction l with
  | nil => rfl
  | cons a l ih => rw [List.foldl_cons, fillStep_all_gap]; exact ih

end FillGaps

/-! ### Claim theorems: boundary cells, empty input, fill_gaps, signal length -/

section ClaimsEasy

variable {α : Type} [LinearOrderedCommRing α]

/-- C9: after matrix initialisation in `glob_affine_gap`, for every
`i ≤ len1` the boundary cell `X[i][0]` equals `gap_open + (i-1)*gap_ext`
(so in particular `X[0][0] = gap_open - gap_ext`), symmetrically
`Y[0][j] = gap_open + (j-1)*gap_ext` for every `j ≤ len2`, and the
boundary backpointers are fixed to the continue-gap states
(`b_x[i][0] = 1`, `b_y[0][j] = 2`). -/
theorem boundary_cells_spec (xs ys : List α) (g e : α) (f : α → α → α)
    (i j : ℕ) (hi : i ≤ xs.length) (hj : j ≤ ys.length) :
    s_x xs ys g e f i 0 = ((g + ((i : α) - 1) * e : α) : WithBot α) ∧
    b_x xs ys g e f i 0 = 1 ∧
    s_y xs ys g e f 0 j = ((g + ((j : α) - 1) * e : α) : WithBot α) ∧
    b_y xs ys g e f 0 j = 2 ∧
    s_x xs ys g e f 0 0 = ((g - e : α) : WithBot α) := by
  refine ⟨s_x_bdry xs ys g e f i, b_x_bdry xs ys g e f i,
    s_y_bdry xs ys g e f j, b_y_bdry xs ys g e f j, ?_⟩
  rw [s_x_bdry]
  norm_cast
  unfold bnd
  push_cast
  ring

/-- Witness for `boundary_cells_spec` at a concrete input. -/
theorem boundary_cells_spec_witness :
    s_x ([3] : List ℤ) [4] (-2) (-1) (fun _ _ => 0) 1 0
      = (((-2 : ℤ) + ((1 : ℤ) - 1) * (-1) : ℤ) : WithBot ℤ) :=
  (boundary_cells_spec [3] [4] (-2) (-1) (fun _ _ => 0) 1 1
    (by norm_num) (by norm_num)).1

/-- C8 counterexample: on two empty sequences with `gap_open = -1`,
`gap_ext = -5`, the returned score is `gap_open - gap_ext = 4`, not `0`:
the final maximum is taken over `s_m[0][0] = 0` and the boundary-seeded
`s_x[0][0] = s_y[0][0] = gap_open - gap_ext`, which is positive when
`gap_ext < gap_open`. -/
theorem empty_alignment_score_ne_zero :
    (glob_affine_gap ([] : List ℤ) [] (-1) (-5) (fun _ _ => 0)).1
      ≠ ((0 : ℤ) : WithBot ℤ) := by decide

/-- C8 amended: for `gap_open ≤ gap_ext` (both negative),
`glob_affine_gap` on two empty sequences returns score 0 and two empty
output sequences. -/
theorem empty_alignment_of_open_le_ext (g e : α) (f : α → α → α)
    (hge : g ≤ e) (hg : g < 0) (he : e < 0) :
    (glob_affine_gap ([] : List α) [] g e f).1 = ((0 : α) : WithBot α) ∧
    (glob_affine_gap ([] : List α) [] g e f).2.1 = [] ∧
    (glob_affine_gap ([] : List α) [] g e f).2.2 = [] := by
  refine ⟨?_, rfl, rfl⟩
  rw [glob_score_eq_max3]
  have hb : ((bnd g e 0 : α) : WithBot α) ≤ ((0 : α) : WithBot α) := by
    rw [WithBot.coe_le_coe]
    unfold bnd
    push_cast
    linarith
  show max3 (s_m ([] : List α) [] g e f 0 0) (s_x ([] : List α) [] g e f 0 0)
      (s_y ([] : List α) [] g e f 0 0) = _
  rw [s_m_zero_zero, s_x_zero_zero, s_y_zero_zero]
  unfold max3
  rw [max_eq_left hb, max_eq_left hb]

/-- Witness for `empty_alignment_of_open_le_ext`. -/
theorem empty_alignment_of_open_le_ext_witness :
    (glob_affine_gap ([] : List ℤ) [] (-3) (-2) (fun _ _ => 0)).1
      = ((0 : ℤ) : WithBot ℤ) :=
  (empty_alignment_of_open_le_ext (-3) (-2) (fun _ _ => 0)
    (by norm_num) (by norm_num) (by norm_num)).1

/-- C2: `fill_gaps([2.0, gap, gap, 8.0])` returns `[2.0, 2.0, 2.0, 8.0]`,
not the linear ramp `[2.0, 4.0, 6.0, 8.0]` the spec states: under
Python 2 the rate `(j - open_gap) / (i - open_gap)` is integer division,
which is 0 for every interior position of the run and 1 at its end. -/
theorem fill_gaps_integer_division_example :
    fill_gaps ([some 2, none, none, some 8] : List (Option ℤ)) = [2, 2, 2, 8] := by
  decide

/-- C3: `theoretical_signal("AG", 2)` returns a signal of length 2, not
the `len(peptide) + window - 1 = 3` stated by the spec (and assumed by
`get_acids_positions` in the same file): the loop
`xrange(-window_size + 1, len(peptide) - 1)` stops one offset short. -/
theorem theoretical_signal_length_AG :
    (theoretical_signal ['A', 'G'] 2).length = 2 := by
  rw [theoretical_signal, List.length_map, pyRange, List.length_map, List.length_range]
  rfl

/-- C4 counterexample: `fill_gaps` applied to the all-gap sequence
`[gap]` does not fail — the source raises no error anywhere — and
returns the zero sequence `[0.0]` left over from the `np.zeros`
initialisation, contradicting the claim that an UnresolvableGap error is
raised and zeros are not returned. -/
theorem fill_gaps_all_gap_singleton :
    fill_gaps ([none] : List (Option ℤ)) = [0] := by decide

/-- C4 amended: on every all-gap input of length `n ≥ 1`, `fill_gaps`
returns the all-zero sequence of the same length (no error is raised:
the open-gap run is never closed, so `res` keeps its `np.zeros`
initial value). -/
theorem fill_gaps_all_gap_zeros (n : ℕ) (hn : 1 ≤ n) :
    fill_gaps (List.replicate n (none : Option α)) = List.replicate n (0 : α) := by
  unfold fill_gaps
  rw [getD_replicate_none]
  simp only [Option.isSome_none, Bool.false_eq_true, if_false, List.length_replicate]
  rw [foldl_fillStep_all_gap]

/-- Witness for `fill_gaps_all_gap_zeros`. -/
theorem fill_gaps_all_gap_zeros_witness :
    fill_gaps (List.replicate 3 (none : Option ℤ)) = List.replicate 3 (0 : ℤ) :=
  fill_gaps_all_gap_zeros 3 (by norm_num)

/-- C6 counterexample: with `S = [0, 1]` and
`match_fn(x, y) = if x = y then 1 else 1000` (so `match_fn(x,x) = c = 1 > 0`
for every `x`), `glob_affine_gap(S, S, -1, -1, match_fn)` returns score
998 (aligning 0 against 1 via two gaps), not `c * len(S) = 2`. -/
theorem identity_alignment_fails_large_offdiag :
    (glob_affine_gap ([0, 1] : List ℤ) [0, 1] (-1) (-1)
        (fun x y => if x = y then 1 else 1000)).1
      ≠ ((2 : ℤ) : WithBot ℤ) := by decide

/-- C7 counterexample: with `A = [0]`, `B = [1]`, the symmetric match
function `f(x, y) = if x = y then 0 else -100` and penalties
`gap_open = gap_ext = -1`, the gapped outputs of
`glob_affine_gap(B, A, ...)` are NOT the swap of the outputs of
`glob_affine_gap(A, B, ...)`: both runs break the final-state tie toward
`s_x` (a gap in the second argument first), so the gap patterns are
identical rather than mirrored. -/
theorem alignment_not_mirrored :
    ¬ ((glob_affine_gap ([1] : List ℤ) [0] (-1) (-1)
          (fun x y => if x = y then 0 else -100)).2.1
        = (glob_affine_gap ([0] : List ℤ) [1] (-1) (-1)
          (fun x y => if x = y then 0 else -100)).2.2 ∧
       (glob_affine_gap ([1] : List ℤ) [0] (-1) (-1)
          (fun x y => if x = y then 0 else -100)).2.2
        = (glob_affine_gap ([0] : List ℤ) [1] (-1) (-1)
          (fun x y => if x = y then 0 else -100)).2.1) := by decide

/-- C1 counterexample: with `seq1 = seq2 = [0]`, `gap_open = -1`,
`gap_ext = -5` and the constant-zero match function, `glob_affine_gap`
returns score 4 (leaked from the boundary seed
`X[0][0] = gap_open - gap_ext` into the match recurrence), while the
true maximum over the three global alignments is 0. -/
theorem score_ne_spec_max_when_ext_lt_open :
    (glob_affine_gap ([0] : List ℤ) [0] (-1) (-5) (fun _ _ => 0)).1
      ≠ specBestScore ([0] : List ℤ) [0] (-1) (-5) (fun _ _ => 0) := by decide

end ClaimsEasy

/-! ### C5: the traceback never emits a gap on both sides at once -/

section NoDoubleGap

variable {α : Type} [LinearOrderedCommRing α]

/-- Each traceback step emits exactly one entry on each side, never a
gap on both: state 0 emits `(value, value)`, state 1 `(value, gap)`,
every other state `(gap, value)`. -/
theorem tb_forall2 (xs ys : List α) (bm bx bY : ℕ → ℕ → ℕ)
    (fuel : ℕ) (st i j : ℕ) :
    List.Forall₂ (fun a b => ¬(a = none ∧ b = none))
      (tb xs ys bm bx bY fuel st i j).1 (tb xs ys bm bx bY fuel st i j).2 := by
  induction fuel generalizing st i j with
  | zero => exact List.Forall₂.nil
  | succ fuel ih =>
    rw [tb]
    by_cases h : i = 0 ∧ j = 0
    · rw [if_pos h]
      exact List.Forall₂.nil
    · rw [if_neg h]
      by_cases h0 : st = 0
      · rw [if_pos h0]
        exact List.Forall₂.cons (by simp) (ih _ _ _)
      · rw [if_neg h0]
        by_cases h1 : st = 1
        · rw [if_pos h1]
          exact List.Forall₂.cons (by simp) (ih _ _ _)
        · rw [if_neg h1]
          exact List.Forall₂.cons (by simp) (ih _ _ _)

theorem forall2_no_double_gap {l1 l2 : List (Option α)}
    (h : List.Forall₂ (fun a b => ¬(a = none ∧ b = none)) l1 l2) (k : ℕ) :
    ¬(l1.getD k (some 0) = none ∧ l2.getD k (some 0) = none) := by
  induction h generalizing k with
  | nil => simp
  | @cons a b l1 l2 ha _ ih =>
    cases k with
    | zero => simpa using ha
    | succ k => simpa using ih k

/-- C5: for every pair of inputs (with negative penalties), the two
gap-annotated sequences returned by `glob_affine_gap` have equal length
and at no index do both hold a gap marker (out-of-range indices read the
non-gap default `some 0`). -/
theorem alignment_no_double_gap (xs ys : List α) (g e : α) (f : α → α → α)
    (hg : g < 0) (he : e < 0) :
    (glob_affine_gap xs ys g e f).2.1.length = (glob_affine_gap xs ys g e f).2.2.length ∧
    ∀ k : ℕ, ¬((glob_affine_gap xs ys g e f).2.1.getD k (some 0) = none ∧
               (glob_affine_gap xs ys g e f).2.2.getD k (some 0) = none) := by
  have h := List.rel_reverse (tb_forall2 xs ys (b_m xs ys g e f) (b_x xs ys g e f)
    (b_y xs ys g e f) (xs.length + ys.length)
    (idx3 (dp xs ys g e f xs.length ys.length).1
      (dp xs ys g e f xs.length ys.length).2.1
      (dp xs ys g e f xs.length ys.length).2.2) xs.length ys.length)
  exact ⟨h.length_eq, fun k => forall2_no_double_gap h k⟩

/-- Witness for `alignment_no_double_gap`. -/
theorem alignment_no_double_gap_witness :
    (glob_affine_gap ([5] : List ℤ) [7] (-1) (-2) (fun _ _ => 0)).2.1.length
      = (glob_affine_gap ([5] : List ℤ) [7] (-1) (-2) (fun _ _ => 0)).2.2.length :=
  (alignment_no_double_gap [5] [7] (-1) (-2) (fun _ _ => 0)
    (by norm_num) (by norm_num)).1

end NoDoubleGap

/-! ### C7: score symmetry under swapping the two sequences -/

section Mirror

variable {α : Type} [LinearOrderedCommRing α]

theorem max3_swap23 (a b c : WithBot α) : max3 a b c = max3 a c b := by
  unfold max3
  exact Max.right_comm a b c

/-- Swapping the two input sequences transposes the DP matrices and
exchanges the roles of `s_x` and `s_y`, provided the match function is
symmetric. -/
theorem dp_mirror (A B : List α) (g e : α) (f : α → α → α)
    (hf : ∀ x y, f x y = f y x) :
    ∀ n i j, i + j ≤ n →
      s_m A B g e f i j = s_m B A g e f j i ∧
      s_x A B g e f i j = s_y B A g e f j i ∧
      s_y A B g e f i j = s_x B A g e f j i := by
  intro n
  induction n with
  | zero =>
    intro i j h
    have hi : i = 0 := Nat.le_zero.mp (le_trans (Nat.le_add_right i j) h)
    have hj : j = 0 := Nat.le_zero.mp (le_trans (Nat.le_add_left j i) h)
    subst hi
    subst hj
    exact ⟨rfl, rfl, rfl⟩
  | succ n ih =>
    intro i j h
    match i, j with
    | 0, 0 => exact ⟨rfl, rfl, rfl⟩
    | i + 1, 0 => exact ⟨rfl, rfl, rfl⟩
    | 0, j + 1 => exact ⟨rfl, rfl, rfl⟩
    | i + 1, j + 1 =>
      have h1 : i + j ≤ n := by omega
      have h2 : i + (j + 1) ≤ n := by omega
      have h3 : (i + 1) + j ≤ n := by omega
      obtain ⟨d1, d2, d3⟩ := ih i j h1
      obtain ⟨u1, u2, u3⟩ := ih i (j + 1) h2
      obtain ⟨l1, l2, l3⟩ := ih (i + 1) j h3
      refine ⟨?_, ?_, ?_⟩
      · rw [s_m_succ_succ, s_m_succ_succ, d1, d2, d3, hf (A.getD i 0) (B.getD j 0)]
        exact max3_swap23 _ _ _
      · rw [s_x_succ_succ A B, s_y_succ_succ B A, u1, u2, u3]
        exact max3_swap23 _ _ _
      · rw [s_y_succ_succ A B, s_x_succ_succ B A, l1, l2, l3]
        exact max3_swap23 _ _ _

/-- C7 amended: for every pair of sequences, negative penalties and a
symmetric match function, `glob_affine_gap(A, B, ...)` and
`glob_affine_gap(B, A, ...)` return equal scores.  (The gapped output
pairs are NOT mirrors of each other in general — see
`alignment_not_mirrored`.) -/
theorem alignment_score_symm (A B : List α) (g e : α) (f : α → α → α)
    (hg : g < 0) (he : e < 0) (hf : ∀ x y, f x y = f y x) :
    (glob_affine_gap A B g e f).1 = (glob_affine_gap B A g e f).1 := by
  rw [glob_score_eq_max3, glob_score_eq_max3]
  obtain ⟨d1, d2, d3⟩ :=
    dp_mirror A B g e f hf (A.length + B.length) A.length B.length le_rfl
  rw [d1, d2, d3]
  exact max3_swap23 _ _ _

/-- Witness for `alignment_score_symm`. -/
theorem alignment_score_symm_witness :
    (glob_affine_gap ([1] : List ℤ) [2] (-1) (-2) (fun x y => x * y)).1
      = (glob_affine_gap ([2] : List ℤ) [1] (-1) (-2) (fun x y => x * y)).1 :=
  alignment_score_symm [1] [2] (-1) (-2) (fun x y => x * y)
    (by norm_num) (by norm_num) (fun x y => by ring)

end Mirror

/-! ### C10: deleting the gap markers from the outputs recovers the inputs -/

section Project

variable {α : Type} [LinearOrderedCommRing α]

/-- States that can occur during backtracking: at a left-column cell the
state must be `X` (1), at a top-row cell it must be `Y` (2), and the
origin `(0, 0)` terminates the walk in any state. -/
def GoodState (st i j : ℕ) : Prop :=
  (i = 0 ∧ j = 0) ∨
  (st = 0 ∧ 1 ≤ i ∧ 1 ≤ j) ∨
  (st = 1 ∧ 1 ≤ i) ∨
  (st ≠ 0 ∧ st ≠ 1 ∧ 1 ≤ j)

theorem goodState_any (st i j : ℕ) (hi : 1 ≤ i) (hj : 1 ≤ j) : GoodState st i j := by
  by_cases h0 : st = 0
  · exact Or.inr (Or.inl ⟨h0, hi, hj⟩)
  · by_cases h1 : st = 1
    · exact Or.inr (Or.inr (Or.inl ⟨h1, hi⟩))
    · exact Or.inr (Or.inr (Or.inr ⟨h0, h1, hj⟩))

theorem b_m_left_col (xs ys : List α) (g e : α) (f : α → α → α)
    (i : ℕ) (hi : 1 ≤ i) : b_m xs ys g e f (i + 1) 1 = 1 := by
  obtain ⟨i', rfl⟩ := Nat.exists_eq_add_of_le hi
  rw [b_m_succ_succ]
  show idx3 (s_m xs ys g e f (1 + i') 0 + _) (s_x xs ys g e f (1 + i') 0 + _)
    (s_y xs ys g e f (1 + i') 0 + _) = 1
  rw [Nat.add_comm 1 i', s_m_succ_zero, s_y_succ_zero, s_x_bdry,
    WithBot.bot_add, ← WithBot.coe_add]
  exact idx3_bot_mid_bot (WithBot.coe_ne_bot)

theorem b_m_top_row (xs ys : List α) (g e : α) (f : α → α → α)
    (j : ℕ) (hj : 1 ≤ j) : b_m xs ys g e f 1 (j + 1) = 2 := by
  obtain ⟨j', rfl⟩ := Nat.exists_eq_add_of_le hj
  rw [b_m_succ_succ]
  show idx3 (s_m xs ys g e f 0 (1 + j') + _) (s_x xs ys g e f 0 (1 + j') + _)
    (s_y xs ys g e f 0 (1 + j') + _) = 2
  rw [Nat.add_comm 1 j', s_m_zero_succ, s_x_zero_succ, s_y_bdry,
    WithBot.bot_add, ← WithBot.coe_add]
  exact idx3_bot_bot (WithBot.coe_ne_bot)

theorem b_x_top_row (xs ys : List α) (g e : α) (f : α → α → α)
    (j : ℕ) : b_x xs ys g e f 1 (j + 1) = 2 := by
  rw [b_x_succ_succ]
  rw [s_m_zero_succ, s_x_zero_succ, s_y_bdry, WithBot.bot_add, ← WithBot.coe_add]
  exact idx3_bot_bot (WithBot.coe_ne_bot)

theorem b_y_left_col (xs ys : List α) (g e : α) (f : α → α → α)
    (i : ℕ) : b_y xs ys g e f (i + 1) 1 = 1 := by
  rw [b_y_succ_succ]
  rw [s_m_succ_zero, s_y_succ_zero, s_x_bdry, WithBot.bot_add, ← WithBot.coe_add]
  exact idx3_bot_mid_bot (WithBot.coe_ne_bot)

theorem take_succ_getD (xs : List α) (n : ℕ) (h : n < xs.length) :
    xs.take (n + 1) = xs.take n ++ [xs.getD n 0] := by
  rw [List.take_succ, List.getElem?_eq_getElem h, List.getD_eq_getElem xs 0 h]
  rfl

/-- In a good state with enough fuel, the traceback's two emitted lists,
reversed and stripped of gap markers, are exactly the prefixes of the
two input sequences consumed so far. -/
theorem tb_project (xs ys : List α) (g e : α) (f : α → α → α) :
    ∀ fuel st i j, GoodState st i j → i + j ≤ fuel → i ≤ xs.length → j ≤ ys.length →
      ((tb xs ys (b_m xs ys g e f) (b_x xs ys g e f) (b_y xs ys g e f)
          fuel st i j).1.reverse.filterMap id = xs.take i) ∧
      ((tb xs ys (b_m xs ys g e f) (b_x xs ys g e f) (b_y xs ys g e f)
          fuel st i j).2.reverse.filterMap id = ys.take j) := by
  intro fuel
  induction fuel with
  | zero =>
    intro st i j _ hfuel _ _
    have hi : i = 0 := by omega
    have hj : j = 0 := by omega
    subst hi
    subst hj
    exact ⟨rfl, rfl⟩
  | succ fuel ih =>
    intro st i j hgood hfuel hi hj
    by_cases hij : i = 0 ∧ j = 0
    · rw [tb, if_pos hij, hij.1, hij.2]
      exact ⟨rfl, rfl⟩
    · rcases hgood with ⟨hi0, hj0⟩ | ⟨hst, hi1, hj1⟩ | ⟨hst, hi1⟩ | ⟨hst0, hst1, hj1⟩
      · exact absurd ⟨hi0, hj0⟩ hij
      · -- match state: consume one element of each sequence
        subst hst
        rw [tb, if_neg hij, if_pos rfl]
        obtain ⟨i', rfl⟩ : ∃ i', i = i' + 1 := ⟨i - 1, by omega⟩
        obtain ⟨j', rfl⟩ : ∃ j', j = j' + 1 := ⟨j - 1, by omega⟩
        have hgood' : GoodState (b_m xs ys g e f (i' + 1) (j' + 1)) i' j' := by
          rcases Nat.eq_zero_or_pos i' with hi' | hi'
          · rcases Nat.eq_zero_or_pos j' with hj' | hj'
            · exact Or.inl ⟨hi', hj'⟩
            · subst hi'
              obtain ⟨j'', rfl⟩ : ∃ j'', j' = j'' + 1 := ⟨j' - 1, by omega⟩
              rw [b_m_top_row xs ys g e f (j'' + 1) (by omega)]
              exact Or.inr (Or.inr (Or.inr ⟨by omega, by omega, by omega⟩))
          · rcases Nat.eq_zero_or_pos j' with hj' | hj'
            · subst hj'
              rw [b_m_left_col xs ys g e f i' hi']
              exact Or.inr (Or.inr (Or.inl ⟨rfl, hi'⟩))
            · exact goodState_any _ _ _ hi' hj'
        obtain ⟨p1, p2⟩ := ih (b_m xs ys g e f (i' + 1) (j' + 1)) i' j' hgood'
          (by omega) (by omega) (by omega)
        constructor
        · show ((some (xs.getD (i' + 1 - 1) 0) :: _).reverse.filterMap id) = _
          simp only [Nat.add_sub_cancel]
          rw [List.reverse_cons, List.filterMap_append, p1]
          simp only [Nat.add_sub_cancel, List.filterMap_cons, id, List.filterMap_nil]
          exact (take_succ_getD xs i' (by omega)).symm
        · show ((some (ys.getD (j' + 1 - 1) 0) :: _).reverse.filterMap id) = _
          simp only [Nat.add_sub_cancel]
          rw [List.reverse_cons, List.filterMap_append, p2]
          simp only [Nat.add_sub_cancel, List.filterMap_cons, id, List.filterMap_nil]
          exact (take_succ_getD ys j' (by omega)).symm
      · -- X state: consume one element of seq1 only
        subst hst
        rw [tb, if_neg hij, if_neg (by omega), if_pos rfl]
        obtain ⟨i', rfl⟩ : ∃ i', i = i' + 1 := ⟨i - 1, by omega⟩
        have hgood' : GoodState (b_x xs ys g e f (i' + 1) j) i' j := by
          rcases Nat.eq_zero_or_pos j with hj' | hj'
          · subst hj'
            rw [b_x_bdry]
            rcases Nat.eq_zero_or_pos i' with hi' | hi'
            · exact Or.inl ⟨hi', rfl⟩
            · exact Or.inr (Or.inr (Or.inl ⟨rfl, hi'⟩))
          · obtain ⟨j'', rfl⟩ : ∃ j'', j = j'' + 1 := ⟨j - 1, by omega⟩
            rcases Nat.eq_zero_or_pos i' with hi' | hi'
            · subst hi'
              rw [b_x_top_row]
              exact Or.inr (Or.inr (Or.inr ⟨by omega, by omega, by omega⟩))
            · exact goodState_any _ _ _ hi' (by omega)
        obtain ⟨p1, p2⟩ := ih (b_x xs ys g e f (i' + 1) j) i' j hgood'
          (by omega) (by omega) hj
        constructor
        · show ((some (xs.getD (i' + 1 - 1) 0) :: _).reverse.filterMap id) = _
          simp only [Nat.add_sub_cancel]
          rw [List.reverse_cons, List.filterMap_append, p1]
          simp only [Nat.add_sub_cancel, List.filterMap_cons, id, List.filterMap_nil]
          exact (take_succ_getD xs i' (by omega)).symm
        · show ((none :: _).reverse.filterMap id) = _
          simp only [Nat.add_sub_cancel]
          rw [List.reverse_cons, List.filterMap_append, p2]
          simp
      · -- Y state: consume one element of seq2 only
        rw [tb, if_neg hij, if_neg hst0, if_neg hst1]
        obtain ⟨j', rfl⟩ : ∃ j', j = j' + 1 := ⟨j - 1, by omega⟩
        have hgood' : GoodState (b_y xs ys g e f i (j' + 1)) i j' := by
          rcases Nat.eq_zero_or_pos i with hi' | hi'
          · subst hi'
            rw [b_y_bdry]
            rcases Nat.eq_zero_or_pos j' with hj' | hj'
            · exact Or.inl ⟨rfl, hj'⟩
            · exact Or.inr (Or.inr (Or.inr ⟨by omega, by omega, hj'⟩))
          · obtain ⟨i'', rfl⟩ : ∃ i'', i = i'' + 1 := ⟨i - 1, by omega⟩
            rcases Nat.eq_zero_or_pos j' with hj' | hj'
            · subst hj'
              rw [b_y_left_col]
              exact Or.inr (Or.inr (Or.inl ⟨rfl, by omega⟩))
            · exact goodState_any _ _ _ (by omega) hj'
        obtain ⟨p1, p2⟩ := ih (b_y xs ys g e f i (j' + 1)) i j' hgood'
          (by omega) hi (by omega)
        constructor
        · show ((none :: _).reverse.filterMap id) = _
          simp only [Nat.add_sub_cancel]
          rw [List.reverse_cons, List.filterMap_append, p1]
          simp
        · show ((some (ys.getD (j' + 1 - 1) 0) :: _).reverse.filterMap id) = _
          simp only [Nat.add_sub_cancel]
          rw [List.reverse_cons, List.filterMap_append, p2]
          simp only [Nat.add_sub_cancel, List.filterMap_cons, id, List.filterMap_nil]
          exact (take_succ_getD ys j' (by omega)).symm

/-- C10: for every pair of non-empty inputs with negative penalties,
deleting all gap markers from the first output sequence of
`glob_affine_gap` yields exactly `seq1`, and from the second exactly
`seq2`. -/
theorem alignment_projects_back (xs ys : List α) (g e : α) (f : α → α → α)
    (hx : xs ≠ []) (hy : ys ≠ []) (hg : g < 0) (he : e < 0) :
    (glob_affine_gap xs ys g e f).2.1.filterMap id = xs ∧
    (glob_affine_gap xs ys g e f).2.2.filterMap id = ys := by
  have hi : 1 ≤ xs.length := List.length_pos.mpr hx
  have hj : 1 ≤ ys.length := List.length_pos.mpr hy
  obtain ⟨p1, p2⟩ := tb_project xs ys g e f (xs.length + ys.length)
    (idx3 (dp xs ys g e f xs.length ys.length).1
      (dp xs ys g e f xs.length ys.length).2.1
      (dp xs ys g e f xs.length ys.length).2.2)
    xs.length ys.length (goodState_any _ _ _ hi hj) le_rfl le_rfl le_rfl
  refine ⟨?_, ?_⟩
  · show (tb xs ys (b_m xs ys g e f) (b_x xs ys g e f) (b_y xs ys g e f)
      (xs.length + ys.length) _ xs.length ys.length).1.reverse.filterMap id = xs
    rw [p1, List.take_length]
  · show (tb xs ys (b_m xs ys g e f) (b_x xs ys g e f) (b_y xs ys g e f)
      (xs.length + ys.length) _ xs.length ys.length).2.reverse.filterMap id = ys
    rw [p2, List.take_length]

/-- Witness for `alignment_projects_back`. -/
theorem alignment_projects_back_witness :
    (glob_affine_gap ([3, 4] : List ℤ) [5] (-1) (-2) (fun _ _ => 1)).2.1.filterMap id
      = [3, 4] :=
  (alignment_projects_back [3, 4] [5] (-1) (-2) (fun _ _ => 1)
    (by decide) (by decide) (by norm_num) (by norm_num)).1

end Project

/-! ### Spec-side scoring: basic lemmas -/

section SpecScoreLemmas

variable {α : Type} [LinearOrderedCommRing α]

@[simp] theorem cons1_nil : cons1 [] = 0 := rfl

@[simp] theorem cons1_mm (r : List Move) : cons1 (Move.mm :: r) = cons1 r + 1 := rfl

@[simp] theorem cons1_gx (r : List Move) : cons1 (Move.gx :: r) = cons1 r + 1 := rfl

@[simp] theorem cons1_gy (r : List Move) : cons1 (Move.gy :: r) = cons1 r := rfl

@[simp] theorem cons2_nil : cons2 [] = 0 := rfl

@[simp] theorem cons2_mm (r : List Move) : cons2 (Move.mm :: r) = cons2 r + 1 := rfl

@[simp] theorem cons2_gx (r : List Move) : cons2 (Move.gx :: r) = cons2 r := rfl

@[simp] theorem cons2_gy (r : List Move) : cons2 (Move.gy :: r) = cons2 r + 1 := rfl

theorem rscore_nil (xs ys : List α) (g e : α) (f : α → α → α) (i j : ℕ) :
    rscore xs ys g e f [] i j = 0 := rfl

theorem rscore_mm (xs ys : List α) (g e : α) (f : α → α → α) (r : List Move) (i j : ℕ) :
    rscore xs ys g e f (Move.mm :: r) i j =
      rscore xs ys g e f r (i - 1) (j - 1) + f (xs.getD (i - 1) 0) (ys.getD (j - 1) 0) := rfl

theorem rscore_gx (xs ys : List α) (g e : α) (f : α → α → α) (r : List Move) (i j : ℕ) :
    rscore xs ys g e f (Move.gx :: r) i j =
      rscore xs ys g e f r (i - 1) j + (if r.head? = some Move.gx then e else g) := rfl

theorem rscore_gy (xs ys : List α) (g e : α) (f : α → α → α) (r : List Move) (i j : ℕ) :
    rscore xs ys g e f (Move.gy :: r) i j =
      rscore xs ys g e f r i (j - 1) + (if r.head? = some Move.gy then e else g) := rfl

theorem head_mm_cons1 {r : List Move} (h : r.head? = some Move.mm) : 1 ≤ cons1 r := by
  cases r with
  | nil => simp at h
  | cons a r =>
    simp at h
    subst h
    simp

theorem head_mm_cons2 {r : List Move} (h : r.head? = some Move.mm) : 1 ≤ cons2 r := by
  cases r with
  | nil => simp at h
  | cons a r =>
    simp at h
    subst h
    simp

theorem head_gx_cons1 {r : List Move} (h : r.head? = some Move.gx) : 1 ≤ cons1 r := by
  cases r with
  | nil => simp at h
  | cons a r =>
    simp at h
    subst h
    simp

theorem head_gy_cons2 {r : List Move} (h : r.head? = some Move.gy) : 1 ≤ cons2 r := by
  cases r with
  | nil => simp at h
  | cons a r =>
    simp at h
    subst h
    simp

theorem bnd_succ (g e : α) (k : ℕ) : bnd g e (k + 1) = bnd g e k + e := by
  unfold bnd
  push_cast
  ring

theorem bnd_one (g e : α) : bnd g e 1 = g := by
  unfold bnd
  push_cast
  ring

end SpecScoreLemmas

/-! ### Upper bound: every alignment's spec score is at most its DP state value -/

section UpperBound

variable {α : Type} [LinearOrderedCommRing α]

/-- The DP matrix charged with alignments ending in a given move (the
empty alignment is charged to `s_m`, whose origin cell is seeded 0). -/
def tgt (xs ys : List α) (g e : α) (f : α → α → α) :
    Option Move → ℕ → ℕ → WithBot α
  | some Move.gx, i, j => s_x xs ys g e f i j
  | some Move.gy, i, j => s_y xs ys g e f i j
  | _, i, j => s_m xs ys g e f i j

/-- Every global alignment scores at most the DP value of the state it
ends in, at the cell given by its consumption counts.  This direction
needs no assumption on the penalties. -/
theorem rscore_le_dp (xs ys : List α) (g e : α) (f : α → α → α) :
    ∀ al : List Move,
      ((rscore xs ys g e f al (cons1 al) (cons2 al) : α) : WithBot α)
        ≤ tgt xs ys g e f al.head? (cons1 al) (cons2 al) := by
  intro al
  induction al with
  | nil =>
    simp only [cons1_nil, cons2_nil, rscore_nil, List.head?_nil, tgt, s_m_zero_zero]
    exact le_rfl
  | cons mv r ih =>
    cases mv with
    | mm =>
      show ((rscore xs ys g e f (Move.mm :: r) (cons1 r + 1) (cons2 r + 1) : α) : WithBot α)
        ≤ s_m xs ys g e f (cons1 r + 1) (cons2 r + 1)
      rw [rscore_mm, s_m_succ_succ]
      simp only [Nat.add_sub_cancel]
      rw [WithBot.coe_add]
      cases hh : r.head? with
      | none =>
        have hr : r = [] := List.head?_eq_none_iff.mp hh
        subst hr
        refine le_trans (add_le_add_right ?_ _) (le_max3_left _ _ _)
        simpa [rscore_nil, s_m_zero_zero] using le_rfl
      | some mv2 =>
        cases mv2 with
        | mm =>
          refine le_trans (add_le_add_right ?_ _) (le_max3_left _ _ _)
          simpa [tgt, hh] using ih
        | gx =>
          refine le_trans (add_le_add_right ?_ _) (le_max3_mid _ _ _)
          simpa [tgt, hh] using ih
        | gy =>
          refine le_trans (add_le_add_right ?_ _) (le_max3_right _ _ _)
          simpa [tgt, hh] using ih
    | gx =>
      show ((rscore xs ys g e f (Move.gx :: r) (cons1 r + 1) (cons2 r) : α) : WithBot α)
        ≤ s_x xs ys g e f (cons1 r + 1) (cons2 r)
      rw [rscore_gx]
      simp only [Nat.add_sub_cancel]
      cases hj : cons2 r with
      | zero =>
        rw [s_x_bdry]
        cases hh : r.head? with
        | none =>
          have hr : r = [] := List.head?_eq_none_iff.mp hh
          subst hr
          simp only [cons1_nil, rscore_nil, hh, zero_add]
          rw [if_neg (by simp), WithBot.coe_le_coe, bnd_one]
        | some mv2 =>
          cases mv2 with
          | mm => exact absurd (head_mm_cons2 hh) (by omega)
          | gx =>
            rw [if_pos rfl, WithBot.coe_add, bnd_succ, WithBot.coe_add]
            refine add_le_add_right ?_ _
            have := ih
            rw [hh] at this
            simp only [tgt] at this
            rw [hj] at this
            rwa [s_x_bdry] at this
          | gy => exact absurd (head_gy_cons2 hh) (by omega)
      | succ j'' =>
        rw [s_x_succ_succ]
        cases hh : r.head? with
        | none =>
          have hr : r = [] := List.head?_eq_none_iff.mp hh
          subst hr
          simp at hj
        | some mv2 =>
          cases mv2 with
          | mm =>
            rw [if_neg (by simp), WithBot.coe_add]
            refine le_trans (add_le_add_right ?_ _) (le_max3_left _ _ _)
            have := ih
            rw [hh] at this
            simp only [tgt] at this
            rwa [hj] at this
          | gx =>
            rw [if_pos rfl, WithBot.coe_add]
            refine le_trans (add_le_add_right ?_ _) (le_max3_mid _ _ _)
            have := ih
            rw [hh] at this
            simp only [tgt] at this
            rwa [hj] at this
          | gy =>
            rw [if_neg (by simp), WithBot.coe_add]
            refine le_trans (add_le_add_right ?_ _) (le_max3_right _ _ _)
            have := ih
            rw [hh] at this
            simp only [tgt] at this
            rwa [hj] at this
    | gy =>
      show ((rscore xs ys g e f (Move.gy :: r) (cons1 r) (cons2 r + 1) : α) : WithBot α)
        ≤ s_y xs ys g e f (cons1 r) (cons2 r + 1)
      rw [rscore_gy]
      simp only [Nat.add_sub_cancel]
      cases hi : cons1 r with
      | zero =>
        rw [s_y_bdry]
        cases hh : r.head? with
        | none =>
          have hr : r = [] := List.head?_eq_none_iff.mp hh
          subst hr
          simp only [cons2_nil, rscore_nil, hh, zero_add]
          rw [if_neg (by simp), WithBot.coe_le_coe, bnd_one]
        | some mv2 =>
          cases mv2 with
          | mm => exact absurd (head_mm_cons1 hh) (by omega)
          | gx => exact absurd (head_gx_cons1 hh) (by omega)
          | gy =>
            rw [if_pos rfl, WithBot.coe_add, bnd_succ, WithBot.coe_add]
            refine add_le_add_right ?_ _
            have := ih
            rw [hh] at this
            simp only [tgt] at this
            rw [hi] at this
            rwa [s_y_bdry] at this
      | succ i'' =>
        rw [s_y_succ_succ]
        cases hh : r.head? with
        | none =>
          have hr : r = [] := List.head?_eq_none_iff.mp hh
          subst hr
          simp at hi
        | some mv2 =>
          cases mv2 with
          | mm =>
            rw [if_neg (by simp), WithBot.coe_add]
            refine le_trans (add_le_add_right ?_ _) (le_max3_left _ _ _)
            have := ih
            rw [hh] at this
            simp only [tgt] at this
            rwa [hi] at this
          | gx =>
            rw [if_neg (by simp), WithBot.coe_add]
            refine le_trans (add_le_add_right ?_ _) (le_max3_mid _ _ _)
            have := ih
            rw [hh] at this
            simp only [tgt] at this
            rwa [hi] at this
          | gy =>
            rw [if_pos rfl, WithBot.coe_add]
            refine le_trans (add_le_add_right ?_ _) (le_max3_right _ _ _)
            have := ih
            rw [hh] at this
            simp only [tgt] at this
            rwa [hi] at this

end UpperBound

/-! ### Pure-gap and pure-match alignments -/

section ReplicateAlignments

variable {α : Type} [LinearOrderedCommRing α]

@[simp] theorem cons1_replicate_gx (k : ℕ) : cons1 (List.replicate k Move.gx) = k := by
  induction k with
  | zero => rfl
  | succ k ih => rw [List.replicate_succ, cons1_gx, ih]

@[simp] theorem cons2_replicate_gx (k : ℕ) : cons2 (List.replicate k Move.gx) = 0 := by
  induction k with
  | zero => rfl
  | succ k ih => rw [List.replicate_succ, cons2_gx, ih]

@[simp] theorem cons1_replicate_gy (k : ℕ) : cons1 (List.replicate k Move.gy) = 0 := by
  induction k with
  | zero => rfl
  | succ k ih => rw [List.replicate_succ, cons1_gy, ih]

@[simp] theorem cons2_replicate_gy (k : ℕ) : cons2 (List.replicate k Move.gy) = k := by
  induction k with
  | zero => rfl
  | succ k ih => rw [List.replicate_succ, cons2_gy, ih]

/-- A pure run of `k + 1` gaps on one side scores
`gap_open + k * gap_ext`, the boundary formula. -/
theorem rscore_replicate_gx (xs ys : List α) (g e : α) (f : α → α → α) :
    ∀ k i j, rscore xs ys g e f (List.replicate (k + 1) Move.gx) i j = bnd g e (k + 1) := by
  intro k
  induction k with
  | zero =>
    intro i j
    rw [List.replicate_succ, List.replicate_zero, rscore_gx, rscore_nil,
      if_neg (by simp), zero_add, bnd_one]
  | succ k ih =>
    intro i j
    rw [List.replicate_succ, rscore_gx, ih,
      if_pos (by rw [List.replicate_succ]; rfl)]
    exact (bnd_succ g e (k + 1)).symm

theorem rscore_replicate_gy (xs ys : List α) (g e : α) (f : α → α → α) :
    ∀ k i j, rscore xs ys g e f (List.replicate (k + 1) Move.gy) i j = bnd g e (k + 1) := by
  intro k
  induction k with
  | zero =>
    intro i j
    rw [List.replicate_succ, List.replicate_zero, rscore_gy, rscore_nil,
      if_neg (by simp), zero_add, bnd_one]
  | succ k ih =>
    intro i j
    rw [List.replicate_succ, rscore_gy, ih,
      if_pos (by rw [List.replicate_succ]; rfl)]
    exact (bnd_succ g e (k + 1)).symm

end ReplicateAlignments

/-! ### Achievability: every finite DP value is realised by an alignment -/

section Achievable

variable {α : Type} [LinearOrderedCommRing α]

/-- Every non-`⊥` entry of the three DP matrices is the spec-side score
of some global alignment of the corresponding prefixes ending in the
corresponding state.  Requires `gap_open ≤ gap_ext`: otherwise the
positive boundary seed `X[0][0] = Y[0][0] = gap_open - gap_ext`, which
corresponds to no alignment, can win the maximum in the match
recurrence at cell (1,1). -/
theorem dp_achievable (xs ys : List α) (g e : α) (f : α → α → α) (hge : g ≤ e) :
    ∀ n i j, i + j ≤ n →
      (s_m xs ys g e f i j = ⊥ ∨
        ∃ al : List Move, (al.head? = some Move.mm ∨ al = []) ∧
          cons1 al = i ∧ cons2 al = j ∧
          ((rscore xs ys g e f al i j : α) : WithBot α) = s_m xs ys g e f i j) ∧
      (1 ≤ i + j →
        (s_x xs ys g e f i j = ⊥ ∨
          ∃ al : List Move, al.head? = some Move.gx ∧
            cons1 al = i ∧ cons2 al = j ∧
            ((rscore xs ys g e f al i j : α) : WithBot α) = s_x xs ys g e f i j)) ∧
      (1 ≤ i + j →
        (s_y xs ys g e f i j = ⊥ ∨
          ∃ al : List Move, al.head? = some Move.gy ∧
            cons1 al = i ∧ cons2 al = j ∧
            ((rscore xs ys g e f al i j : α) : WithBot α) = s_y xs ys g e f i j)) := by
  intro n
  induction n with
  | zero =>
    intro i j h
    have hi : i = 0 := by omega
    have hj : j = 0 := by omega
    subst hi
    subst hj
    refine ⟨Or.inr ⟨[], Or.inr rfl, rfl, rfl, ?_⟩,
      fun h1 => absurd h1 (by omega), fun h1 => absurd h1 (by omega)⟩
    rw [rscore_nil, s_m_zero_zero]
  | succ n ih =>
    intro i j h
    match i, j with
    | 0, 0 =>
      refine ⟨Or.inr ⟨[], Or.inr rfl, rfl, rfl, ?_⟩,
        fun h1 => absurd h1 (by omega), fun h1 => absurd h1 (by omega)⟩
      rw [rscore_nil, s_m_zero_zero]
    | i + 1, 0 =>
      refine ⟨Or.inl (s_m_succ_zero xs ys g e f i), fun _ => Or.inr
        ⟨List.replicate (i + 1) Move.gx, by rw [List.replicate_succ]; rfl,
          cons1_replicate_gx (i + 1), cons2_replicate_gx (i + 1), ?_⟩,
        fun _ => Or.inl (s_y_succ_zero xs ys g e f i)⟩
      rw [rscore_replicate_gx, s_x_bdry]
    | 0, j + 1 =>
      refine ⟨Or.inl (s_m_zero_succ xs ys g e f j), fun _ => Or.inl
        (s_x_zero_succ xs ys g e f j), fun _ => Or.inr
        ⟨List.replicate (j + 1) Move.gy, by rw [List.replicate_succ]; rfl,
          cons1_replicate_gy (j + 1), cons2_replicate_gy (j + 1), ?_⟩⟩
      rw [rscore_replicate_gy, s_y_bdry]
    | i + 1, j + 1 =>
      obtain ⟨ihM, ihX, ihY⟩ := ih i j (by omega)
      obtain ⟨ihM1, ihX1, ihY1⟩ := ih i (j + 1) (by omega)
      obtain ⟨ihM2, ihX2, ihY2⟩ := ih (i + 1) j (by omega)
      refine ⟨?_, fun _ => ?_, fun _ => ?_⟩
      · -- match state at (i+1, j+1)
        by_cases hbot : s_m xs ys g e f (i + 1) (j + 1) = ⊥
        · exact Or.inl hbot
        right
        have hrec := s_m_succ_succ xs ys g e f i j
        by_cases hA : s_m xs ys g e f (i + 1) (j + 1)
            = s_m xs ys g e f i j + ((f (xs.getD i 0) (ys.getD j 0) : α) : WithBot α)
        · have hmb : s_m xs ys g e f i j ≠ ⊥ := by
            intro hb
            rw [hb, WithBot.bot_add] at hA
            exact hbot hA
          rcases ihM with hb | ⟨al, hd, h1, h2, hsc⟩
          · exact absurd hb hmb
          refine ⟨Move.mm :: al, Or.inl rfl, by rw [cons1_mm, h1], by rw [cons2_mm, h2], ?_⟩
          rw [rscore_mm]
          simp only [Nat.add_sub_cancel]
          rw [WithBot.coe_add, hsc]
          exact hA.symm
        · by_cases hB : s_m xs ys g e f (i + 1) (j + 1)
              = s_x xs ys g e f i j + ((f (xs.getD i 0) (ys.getD j 0) : α) : WithBot α)
          · have hij : 1 ≤ i + j := by
              by_contra h0
              have hi0 : i = 0 := by omega
              have hj0 : j = 0 := by omega
              subst hi0
              subst hj0
              apply hA
              rw [hrec, s_m_zero_zero, s_x_zero_zero, s_y_zero_zero]
              have hb : ((bnd g e 0 : α) : WithBot α)
                  + ((f (xs.getD 0 0) (ys.getD 0 0) : α) : WithBot α)
                  ≤ ((0 : α) : WithBot α)
                  + ((f (xs.getD 0 0) (ys.getD 0 0) : α) : WithBot α) := by
                refine add_le_add_right ?_ _
                rw [WithBot.coe_le_coe]
                unfold bnd
                push_cast
                linarith
              unfold max3
              rw [max_eq_left hb, max_eq_left hb]
            have hxb : s_x xs ys g e f i j ≠ ⊥ := by
              intro hb
              rw [hb, WithBot.bot_add] at hB
              exact hbot hB
            rcases ihX hij with hb | ⟨al, hd, h1, h2, hsc⟩
            · exact absurd hb hxb
            refine ⟨Move.mm :: al, Or.inl rfl, by rw [cons1_mm, h1], by rw [cons2_mm, h2], ?_⟩
            rw [rscore_mm]
            simp only [Nat.add_sub_cancel]
            rw [WithBot.coe_add, hsc]
            exact hB.symm
          · have hC : s_m xs ys g e f (i + 1) (j + 1)
                = s_y xs ys g e f i j + ((f (xs.getD i 0) (ys.getD j 0) : α) : WithBot α) := by
              rcases max3_choice (s_m xs ys g e f i j + ((f (xs.getD i 0) (ys.getD j 0) : α) : WithBot α))
                (s_x xs ys g e f i j + ((f (xs.getD i 0) (ys.getD j 0) : α) : WithBot α))
                (s_y xs ys g e f i j + ((f (xs.getD i 0) (ys.getD j 0) : α) : WithBot α)) with
                hc | hc | hc
              · exact absurd (hrec.trans hc) hA
              · exact absurd (hrec.trans hc) hB
              · exact hrec.trans hc
            have hij : 1 ≤ i + j := by
              by_contra h0
              have hi0 : i = 0 := by omega
              have hj0 : j = 0 := by omega
              subst hi0
              subst hj0
              apply hA
              rw [hrec, s_m_zero_zero, s_x_zero_zero, s_y_zero_zero]
              have hb : ((bnd g e 0 : α) : WithBot α)
                  + ((f (xs.getD 0 0) (ys.getD 0 0) : α) : WithBot α)
                  ≤ ((0 : α) : WithBot α)
                  + ((f (xs.getD 0 0) (ys.getD 0 0) : α) : WithBot α) := by
                refine add_le_add_right ?_ _
                rw [WithBot.coe_le_coe]
                unfold bnd
                push_cast
                linarith
              unfold max3
              rw [max_eq_left hb, max_eq_left hb]
            have hyb : s_y xs ys g e f i j ≠ ⊥ := by
              intro hb
              rw [hb, WithBot.bot_add] at hC
              exact hbot hC
            rcases ihY hij with hb | ⟨al, hd, h1, h2, hsc⟩
            · exact absurd hb hyb
            refine ⟨Move.mm :: al, Or.inl rfl, by rw [cons1_mm, h1], by rw [cons2_mm, h2], ?_⟩
            rw [rscore_mm]
            simp only [Nat.add_sub_cancel]
            rw [WithBot.coe_add, hsc]
            exact hC.symm
      · -- gap-in-seq2 state at (i+1, j+1)
        by_cases hbot : s_x xs ys g e f (i + 1) (j + 1) = ⊥
        · exact Or.inl hbot
        right
        have hrec := s_x_succ_succ xs ys g e f i j
        by_cases hA : s_x xs ys g e f (i + 1) (j + 1)
            = s_m xs ys g e f i (j + 1) + (g : WithBot α)
        · have hmb : s_m xs ys g e f i (j + 1) ≠ ⊥ := by
            intro hb
            rw [hb, WithBot.bot_add] at hA
            exact hbot hA
          rcases ihM1 with hb | ⟨al, hd, h1, h2, hsc⟩
          · exact absurd hb hmb
          have hdm : al.head? = some Move.mm := by
            rcases hd with hd | hd
            · exact hd
            · subst hd
              simp at h2
          refine ⟨Move.gx :: al, rfl, by rw [cons1_gx, h1], by rw [cons2_gx, h2], ?_⟩
          rw [rscore_gx]
          simp only [Nat.add_sub_cancel]
          rw [if_neg (by rw [hdm]; simp), WithBot.coe_add, hsc]
          exact hA.symm
        · by_cases hB : s_x xs ys g e f (i + 1) (j + 1)
              = s_x xs ys g e f i (j + 1) + (e : WithBot α)
          · have hxb : s_x xs ys g e f i (j + 1) ≠ ⊥ := by
              intro hb
              rw [hb, WithBot.bot_add] at hB
              exact hbot hB
            rcases ihX1 (by omega) with hb | ⟨al, hd, h1, h2, hsc⟩
            · exact absurd hb hxb
            refine ⟨Move.gx :: al, rfl, by rw [cons1_gx, h1], by rw [cons2_gx, h2], ?_⟩
            rw [rscore_gx]
            simp only [Nat.add_sub_cancel]
            rw [if_pos hd, WithBot.coe_add, hsc]
            exact hB.symm
          · have hC : s_x xs ys g e f (i + 1) (j + 1)
                = s_y xs ys g e f i (j + 1) + (g : WithBot α) := by
              rcases max3_choice (s_m xs ys g e f i (j + 1) + (g : WithBot α))
                (s_x xs ys g e f i (j + 1) + (e : WithBot α))
                (s_y xs ys g e f i (j + 1) + (g : WithBot α)) with hc | hc | hc
              · exact absurd (hrec.trans hc) hA
              · exact absurd (hrec.trans hc) hB
              · exact hrec.trans hc
            have hyb : s_y xs ys g e f i (j + 1) ≠ ⊥ := by
              intro hb
              rw [hb, WithBot.bot_add] at hC
              exact hbot hC
            rcases ihY1 (by omega) with hb | ⟨al, hd, h1, h2, hsc⟩
            · exact absurd hb hyb
            refine ⟨Move.gx :: al, rfl, by rw [cons1_gx, h1], by rw [cons2_gx, h2], ?_⟩
            rw [rscore_gx]
            simp only [Nat.add_sub_cancel]
            rw [if_neg (by rw [hd]; simp), WithBot.coe_add, hsc]
            exact hC.symm
      · -- gap-in-seq1 state at (i+1, j+1)
        by_cases hbot : s_y xs ys g e f (i + 1) (j + 1) = ⊥
        · exact Or.inl hbot
        right
        have hrec := s_y_succ_succ xs ys g e f i j
        by_cases hA : s_y xs ys g e f (i + 1) (j + 1)
            = s_m xs ys g e f (i + 1) j + (g : WithBot α)
        · have hmb : s_m xs ys g e f (i + 1) j ≠ ⊥ := by
            intro hb
            rw [hb, WithBot.bot_add] at hA
            exact hbot hA
          rcases ihM2 with hb | ⟨al, hd, h1, h2, hsc⟩
          · exact absurd hb hmb
          have hdm : al.head? = some Move.mm := by
            rcases hd with hd | hd
            · exact hd
            · subst hd
              simp at h1
          refine ⟨Move.gy :: al, rfl, by rw [cons1_gy, h1], by rw [cons2_gy, h2], ?_⟩
          rw [rscore_gy]
          simp only [Nat.add_sub_cancel]
          rw [if_neg (by rw [hdm]; simp), WithBot.coe_add, hsc]
          exact hA.symm
        · by_cases hB : s_y xs ys g e f (i + 1) (j + 1)
              = s_x xs ys g e f (i + 1) j + (g : WithBot α)
          · have hxb : s_x xs ys g e f (i + 1) j ≠ ⊥ := by
              intro hb
              rw [hb, WithBot.bot_add] at hB
              exact hbot hB
            rcases ihX2 (by omega) with hb | ⟨al, hd, h1, h2, hsc⟩
            · exact absurd hb hxb
            refine ⟨Move.gy :: al, rfl, by rw [cons1_gy, h1], by rw [cons2_gy, h2], ?_⟩
            rw [rscore_gy]
            simp only [Nat.add_sub_cancel]
            rw [if_neg (by rw [hd]; simp), WithBot.coe_add, hsc]
            exact hB.symm
          · have hC : s_y xs ys g e f (i + 1) (j + 1)
                = s_y xs ys g e f (i + 1) j + (e : WithBot α) := by
              rcases max3_choice (s_m xs ys g e f (i + 1) j + (g : WithBot α))
                (s_x xs ys g e f (i + 1) j + (g : WithBot α))
                (s_y xs ys g e f (i + 1) j + (e : WithBot α)) with hc | hc | hc
              · exact absurd (hrec.trans hc) hA
              · exact absurd (hrec.trans hc) hB
              · exact hrec.trans hc
            have hyb : s_y xs ys g e f (i + 1) j ≠ ⊥ := by
              intro hb
              rw [hb, WithBot.bot_add] at hC
              exact hbot hC
            rcases ihY2 (by omega) with hb | ⟨al, hd, h1, h2, hsc⟩
            · exact absurd hb hyb
            refine ⟨Move.gy :: al, rfl, by rw [cons1_gy, h1], by rw [cons2_gy, h2], ?_⟩
            rw [rscore_gy]
            simp only [Nat.add_sub_cancel]
            rw [if_pos hd, WithBot.coe_add, hsc]
            exact hC.symm

end Achievable

/-! ### The best cell value is never `-inf`, and the enumeration of
alignments is sound and complete -/

section Enumeration

variable {α : Type} [LinearOrderedCommRing α]

theorem max3_ne_bot_elim {a b c : WithBot α} (h : max3 a b c ≠ ⊥) :
    a ≠ ⊥ ∨ b ≠ ⊥ ∨ c ≠ ⊥ := by
  by_contra hc
  push_neg at hc
  obtain ⟨ha, hb2, hc2⟩ := hc
  exact h (by rw [ha, hb2, hc2]; simp [max3])

theorem dp_max3_ne_bot (xs ys : List α) (g e : α) (f : α → α → α) :
    ∀ n i j, i + j ≤ n →
      max3 (s_m xs ys g e f i j) (s_x xs ys g e f i j) (s_y xs ys g e f i j) ≠ ⊥ := by
  intro n
  induction n with
  | zero =>
    intro i j h
    have hi : i = 0 := by omega
    have hj : j = 0 := by omega
    subst hi
    subst hj
    rw [s_m_zero_zero]
    exact max3_ne_bot_of_left _ _ WithBot.coe_ne_bot
  | succ n ih =>
    intro i j h
    match i, j with
    | 0, 0 =>
      rw [s_m_zero_zero]
      exact max3_ne_bot_of_left _ _ WithBot.coe_ne_bot
    | i + 1, 0 =>
      rw [s_x_bdry]
      exact max3_ne_bot_of_mid _ _ WithBot.coe_ne_bot
    | 0, j + 1 =>
      rw [s_y_bdry]
      exact max3_ne_bot_of_right _ _ WithBot.coe_ne_bot
    | i + 1, j + 1 =>
      have hmm : s_m xs ys g e f (i + 1) (j + 1) ≠ ⊥ := by
        rw [s_m_succ_succ]
        rcases max3_ne_bot_elim (ih i j (by omega)) with hb | hb | hb
        · exact max3_ne_bot_of_left _ _
            (WithBot.add_ne_bot.mpr ⟨hb, WithBot.coe_ne_bot⟩)
        · exact max3_ne_bot_of_mid _ _
            (WithBot.add_ne_bot.mpr ⟨hb, WithBot.coe_ne_bot⟩)
        · exact max3_ne_bot_of_right _ _
            (WithBot.add_ne_bot.mpr ⟨hb, WithBot.coe_ne_bot⟩)
      exact max3_ne_bot_of_left _ _ hmm

/-- Completeness of the enumeration: every global alignment of the
`(i, j)` prefixes appears in `allValidF fuel i j` once `fuel >= i + j`. -/
theorem mem_allValidF :
    ∀ (al : List Move) (fuel i j : ℕ), cons1 al = i → cons2 al = j →
      i + j ≤ fuel → al ∈ allValidF fuel i j := by
  intro al
  induction al with
  | nil =>
    intro fuel i j h1 h2 _
    rw [← h1, ← h2]
    cases fuel with
    | zero => simp [allValidF]
    | succ fuel => simp [allValidF]
  | cons mv r ih =>
    intro fuel i j h1 h2 hf
    subst h1
    subst h2
    cases mv with
    | mm =>
      simp only [cons1_mm, cons2_mm] at hf ⊢
      obtain ⟨fuel', rfl⟩ : ∃ fuel', fuel = fuel' + 1 := ⟨fuel - 1, by omega⟩
      rw [allValidF, if_neg (by omega), if_pos (by omega)]
      refine List.mem_append_left _ (List.mem_append_left _ ?_)
      simp only [Nat.add_sub_cancel]
      exact List.mem_map_of_mem _ (ih fuel' _ _ rfl rfl (by omega))
    | gx =>
      simp only [cons1_gx, cons2_gx] at hf ⊢
      obtain ⟨fuel', rfl⟩ : ∃ fuel', fuel = fuel' + 1 := ⟨fuel - 1, by omega⟩
      rw [allValidF, if_neg (by omega)]
      refine List.mem_append_left _ (List.mem_append_right _ ?_)
      rw [if_pos (by omega)]
      simp only [Nat.add_sub_cancel]
      exact List.mem_map_of_mem _ (ih fuel' _ _ rfl rfl (by omega))
    | gy =>
      simp only [cons1_gy, cons2_gy] at hf ⊢
      obtain ⟨fuel', rfl⟩ : ∃ fuel', fuel = fuel' + 1 := ⟨fuel - 1, by omega⟩
      rw [allValidF, if_neg (by omega)]
      refine List.mem_append_right _ ?_
      rw [if_pos (by omega)]
      simp only [Nat.add_sub_cancel]
      exact List.mem_map_of_mem _ (ih fuel' _ _ rfl rfl (by omega))

/-- Soundness of the enumeration: members of `allValidF fuel i j` are
global alignments of the `(i, j)` prefixes. -/
theorem allValidF_sound :
    ∀ (fuel i j : ℕ) (al : List Move), al ∈ allValidF fuel i j →
      cons1 al = i ∧ cons2 al = j := by
  intro fuel
  induction fuel with
  | zero =>
    intro i j al h
    rw [allValidF] at h
    by_cases hc : i = 0 ∧ j = 0
    · rw [if_pos hc] at h
      have hal : al = [] := List.mem_singleton.mp h
      subst hal
      exact ⟨hc.1.symm, hc.2.symm⟩
    · rw [if_neg hc] at h
      exact absurd h (List.not_mem_nil al)
  | succ fuel ih =>
    intro i j al h
    rw [allValidF] at h
    by_cases hc : i = 0 ∧ j = 0
    · rw [if_pos hc] at h
      have hal : al = [] := List.mem_singleton.mp h
      subst hal
      exact ⟨hc.1.symm, hc.2.symm⟩
    · rw [if_neg hc] at h
      rcases List.mem_append.mp h with h | h
      · rcases List.mem_append.mp h with h | h
        · by_cases hc2 : 1 ≤ i ∧ 1 ≤ j
          · rw [if_pos hc2] at h
            obtain ⟨r, hr, rfl⟩ := List.mem_map.mp h
            obtain ⟨hr1, hr2⟩ := ih _ _ _ hr
            exact ⟨by rw [cons1_mm, hr1]; omega, by rw [cons2_mm, hr2]; omega⟩
          · rw [if_neg hc2] at h
            exact absurd h (List.not_mem_nil al)
        · by_cases hc2 : 1 ≤ i
          · rw [if_pos hc2] at h
            obtain ⟨r, hr, rfl⟩ := List.mem_map.mp h
            obtain ⟨hr1, hr2⟩ := ih _ _ _ hr
            exact ⟨by rw [cons1_gx, hr1]; omega, by rw [cons2_gx, hr2]⟩
          · rw [if_neg hc2] at h
            exact absurd h (List.not_mem_nil al)
      · by_cases hc2 : 1 ≤ j
        · rw [if_pos hc2] at h
          obtain ⟨r, hr, rfl⟩ := List.mem_map.mp h
          obtain ⟨hr1, hr2⟩ := ih _ _ _ hr
          exact ⟨by rw [cons1_gy, hr1], by rw [cons2_gy, hr2]; omega⟩
        · rw [if_neg hc2] at h
          exact absurd h (List.not_mem_nil al)

theorem le_foldr_max {l : List α} {v : α} (h : v ∈ l) :
    ((v : α) : WithBot α) ≤ l.foldr (fun (w : α) acc => max ((w : WithBot α)) acc) ⊥ := by
  induction l with
  | nil => simp at h
  | cons a l ih =>
    rcases List.mem_cons.mp h with h | h
    · subst h
      exact le_max_left _ _
    · exact le_trans (ih h) (le_max_right _ _)

theorem foldr_max_cases (l : List α) :
    l.foldr (fun (w : α) acc => max ((w : WithBot α)) acc) ⊥ = ⊥ ∨
    ∃ v, v ∈ l ∧
      l.foldr (fun (w : α) acc => max ((w : WithBot α)) acc) ⊥ = ((v : α) : WithBot α) := by
  induction l with
  | nil => exact Or.inl rfl
  | cons a l ih =>
    right
    rcases ih with hb | ⟨v, hv, he2⟩
    · exact ⟨a, List.mem_cons_self a l, by
        rw [List.foldr_cons, hb]
        exact max_eq_left bot_le⟩
    · rcases max_choice ((a : WithBot α))
        (l.foldr (fun (w : α) acc => max ((w : WithBot α)) acc) ⊥) with hc | hc
      · exact ⟨a, List.mem_cons_self a l, by rw [List.foldr_cons]; exact hc⟩
      · exact ⟨v, List.mem_cons_of_mem a hv, by rw [List.foldr_cons, hc, he2]⟩

end Enumeration

/-! ### C1: the returned score is the optimum over all global alignments
(when `gap_open ≤ gap_ext`) -/

section ScoreOptimal

variable {α : Type} [LinearOrderedCommRing α]

theorem rscore_le_score (xs ys : List α) (g e : α) (f : α → α → α)
    (al : List Move) (hv : Valid al xs.length ys.length) :
    ((rscore xs ys g e f al xs.length ys.length : α) : WithBot α)
      ≤ (glob_affine_gap xs ys g e f).1 := by
  obtain ⟨h1, h2⟩ := hv
  have hub := rscore_le_dp xs ys g e f al
  rw [h1, h2] at hub
  rw [glob_score_eq_max3]
  refine le_trans hub ?_
  cases hh : al.head? with
  | none =>
    simp only [tgt]
    exact le_max3_left _ _ _
  | some mv =>
    cases mv with
    | mm =>
      simp only [tgt]
      exact le_max3_left _ _ _
    | gx =>
      simp only [tgt]
      exact le_max3_mid _ _ _
    | gy =>
      simp only [tgt]
      exact le_max3_right _ _ _

/-- C1 amended: for non-empty inputs and `gap_open ≤ gap_ext` (both
negative), the score returned by `glob_affine_gap` equals the maximum,
over all global alignments of `seq1` with `seq2`, of the sum of
`match_fun` over aligned pairs plus, for each maximal gap run of length
`L`, `gap_open + (L-1)*gap_ext`.  The maximum is expressed both as the
fold `specBestScore` over the explicit enumeration of alignments and as
the pair (upper bound over all alignments, attained by some alignment). -/
theorem score_eq_spec_max_of_open_le_ext (xs ys : List α) (g e : α) (f : α → α → α)
    (hge : g ≤ e) (hg : g < 0) (he : e < 0) (hx : xs ≠ []) (hy : ys ≠ []) :
    (glob_affine_gap xs ys g e f).1 = specBestScore xs ys g e f ∧
    (∀ al : List Move, Valid al xs.length ys.length →
      ((rscore xs ys g e f al xs.length ys.length : α) : WithBot α)
        ≤ (glob_affine_gap xs ys g e f).1) ∧
    (∃ al : List Move, Valid al xs.length ys.length ∧
      ((rscore xs ys g e f al xs.length ys.length : α) : WithBot α)
        = (glob_affine_gap xs ys g e f).1) := by
  have hex : ∃ al : List Move, Valid al xs.length ys.length ∧
      ((rscore xs ys g e f al xs.length ys.length : α) : WithBot α)
        = (glob_affine_gap xs ys g e f).1 := by
    have hnb := dp_max3_ne_bot xs ys g e f (xs.length + ys.length)
      xs.length ys.length le_rfl
    have hsc := glob_score_eq_max3 xs ys g e f
    obtain ⟨hM, hX, hY⟩ := dp_achievable xs ys g e f hge (xs.length + ys.length)
      xs.length ys.length le_rfl
    have h1n : 1 ≤ xs.length := List.length_pos.mpr hx
    have hsum : 1 ≤ xs.length + ys.length := by omega
    rcases max3_choice (s_m xs ys g e f xs.length ys.length)
      (s_x xs ys g e f xs.length ys.length)
      (s_y xs ys g e f xs.length ys.length) with hc | hc | hc
    · rcases hM with hb | ⟨al, _, h1, h2, hsc2⟩
      · exact absurd (hc.trans hb) hnb
      · exact ⟨al, ⟨h1, h2⟩, hsc2.trans (hc.symm.trans hsc.symm)⟩
    · rcases hX hsum with hb | ⟨al, _, h1, h2, hsc2⟩
      · exact absurd (hc.trans hb) hnb
      · exact ⟨al, ⟨h1, h2⟩, hsc2.trans (hc.symm.trans hsc.symm)⟩
    · rcases hY hsum with hb | ⟨al, _, h1, h2, hsc2⟩
      · exact absurd (hc.trans hb) hnb
      · exact ⟨al, ⟨h1, h2⟩, hsc2.trans (hc.symm.trans hsc.symm)⟩
  refine ⟨?_, fun al hv => rscore_le_score xs ys g e f al hv, hex⟩
  apply le_antisymm
  · obtain ⟨al, hv, hr⟩ := hex
    rw [← hr]
    exact le_foldr_max (List.mem_map_of_mem _
      (mem_allValidF al (xs.length + ys.length) xs.length ys.length hv.1 hv.2 le_rfl))
  · rcases foldr_max_cases ((allValidF (xs.length + ys.length) xs.length ys.length).map
      (fun al => rscore xs ys g e f al xs.length ys.length)) with hb | ⟨v, hv, he2⟩
    · show ((allValidF (xs.length + ys.length) xs.length ys.length).map
        (fun al => rscore xs ys g e f al xs.length ys.length)).foldr
        (fun (v : α) acc => max ((v : WithBot α)) acc) ⊥ ≤ _
      rw [hb]
      exact bot_le
    · show ((allValidF (xs.length + ys.length) xs.length ys.length).map
        (fun al => rscore xs ys g e f al xs.length ys.length)).foldr
        (fun (v : α) acc => max ((v : WithBot α)) acc) ⊥ ≤ _
      rw [he2]
      obtain ⟨al, hal, rfl⟩ := List.mem_map.mp hv
      obtain ⟨h1, h2⟩ := allValidF_sound _ _ _ _ hal
      exact rscore_le_score xs ys g e f al ⟨h1, h2⟩

/-- Witness for `score_eq_spec_max_of_open_le_ext`. -/
theorem score_eq_spec_max_witness :
    (glob_affine_gap ([0] : List ℤ) [1] (-2) (-1) (fun _ _ => 0)).1
      = specBestScore ([0] : List ℤ) [1] (-2) (-1) (fun _ _ => 0) :=
  (score_eq_spec_max_of_open_le_ext [0] [1] (-2) (-1) (fun _ _ => 0)
    (by norm_num) (by norm_num) (by norm_num) (by decide) (by decide)).1

end ScoreOptimal

/-! ### C6: identity alignment under a bounded match function -/

section Identity

variable {α : Type} [LinearOrderedCommRing α]

/-- Number of matched pairs in an alignment. -/
def mmc : List Move → ℕ
  | [] => 0
  | Move.mm :: r => mmc r + 1
  | _ :: r => mmc r

@[simp] theorem mmc_nil : mmc [] = 0 := rfl

@[simp] theorem mmc_mm (r : List Move) : mmc (Move.mm :: r) = mmc r + 1 := rfl

@[simp] theorem mmc_gx (r : List Move) : mmc (Move.gx :: r) = mmc r := rfl

@[simp] theorem mmc_gy (r : List Move) : mmc (Move.gy :: r) = mmc r := rfl

theorem mmc_le_cons1 : ∀ al : List Move, mmc al ≤ cons1 al := by
  intro al
  induction al with
  | nil => exact le_rfl
  | cons mv r ih =>
    cases mv with
    | mm => simpa using ih
    | gx => simp only [mmc_gx, cons1_gx]; omega
    | gy => simpa using ih

/-- With match values bounded by `c` and non-positive gap penalties,
every alignment scores at most `c` per matched pair. -/
theorem rscore_le_mmc (xs ys : List α) (g e c : α) (f : α → α → α)
    (hfb : ∀ x y, f x y ≤ c) (hg : g ≤ 0) (he : e ≤ 0) :
    ∀ (al : List Move) (i j : ℕ),
      rscore xs ys g e f al i j ≤ (mmc al : α) * c := by
  intro al
  induction al with
  | nil =>
    intro i j
    simp [rscore_nil]
  | cons mv r ih =>
    intro i j
    cases mv with
    | mm =>
      rw [rscore_mm, mmc_mm]
      push_cast
      have := add_le_add (ih (i - 1) (j - 1)) (hfb (xs.getD (i - 1) 0) (ys.getD (j - 1) 0))
      calc rscore xs ys g e f r (i - 1) (j - 1) + f (xs.getD (i - 1) 0) (ys.getD (j - 1) 0)
          ≤ (mmc r : α) * c + c := this
        _ = ((mmc r : α) + 1) * c := by ring
    | gx =>
      rw [rscore_gx, mmc_gx]
      have hcost : (if r.head? = some Move.gx then e else g) ≤ 0 := by
        split
        · exact he
        · exact hg
      calc rscore xs ys g e f r (i - 1) j + (if r.head? = some Move.gx then e else g)
          ≤ (mmc r : α) * c + 0 := add_le_add (ih (i - 1) j) hcost
        _ = (mmc r : α) * c := by ring
    | gy =>
      rw [rscore_gy, mmc_gy]
      have hcost : (if r.head? = some Move.gy then e else g) ≤ 0 := by
        split
        · exact he
        · exact hg
      calc rscore xs ys g e f r i (j - 1) + (if r.head? = some Move.gy then e else g)
          ≤ (mmc r : α) * c + 0 := add_le_add (ih i (j - 1)) hcost
        _ = (mmc r : α) * c := by ring

@[simp] theorem cons1_replicate_mm (k : ℕ) : cons1 (List.replicate k Move.mm) = k := by
  induction k with
  | zero => rfl
  | succ k ih => rw [List.replicate_succ, cons1_mm, ih]

@[simp] theorem cons2_replicate_mm (k : ℕ) : cons2 (List.replicate k Move.mm) = k := by
  induction k with
  | zero => rfl
  | succ k ih => rw [List.replicate_succ, cons2_mm, ih]

/-- The pure-match diagonal alignment of a sequence with itself scores
`k * c` when `f x x = c` for all `x`. -/
theorem rscore_replicate_mm (S : List α) (g e c : α) (f : α → α → α)
    (hfd : ∀ x, f x x = c) :
    ∀ k i, rscore S S g e f (List.replicate k Move.mm) i i = (k : α) * c := by
  intro k
  induction k with
  | zero =>
    intro i
    simp [rscore_nil]
  | succ k ih =>
    intro i
    rw [List.replicate_succ, rscore_mm, ih (i - 1), hfd]
    push_cast
    ring

/-- Along the diagonal of a self-alignment with bounded match values,
the match matrix holds exactly `k * c` and dominates the gap matrices. -/
theorem dp_diag (S : List α) (g e c : α) (f : α → α → α)
    (hge : g ≤ e) (hg : g < 0) (he : e < 0) (hc : 0 ≤ c)
    (hfd : ∀ x, f x x = c) (hfb : ∀ x y, f x y ≤ c) :
    ∀ k, k ≤ S.length →
      s_m S S g e f k k = (((k : α) * c : α) : WithBot α) ∧
      s_x S S g e f k k ≤ (((k : α) * c : α) : WithBot α) ∧
      s_y S S g e f k k ≤ (((k : α) * c : α) : WithBot α) := by
  intro k hk
  have hub : (((k : α) * c : α) : WithBot α) ≤ s_m S S g e f k k := by
    have h := rscore_le_dp S S g e f (List.replicate k Move.mm)
    rw [cons1_replicate_mm, cons2_replicate_mm,
      rscore_replicate_mm S g e c f hfd k k] at h
    cases k with
    | zero => exact h
    | succ k' =>
      rw [List.replicate_succ] at h
      exact h
  have hbound : ∀ al : List Move, cons1 al = k →
      ((rscore S S g e f al k k : α) : WithBot α) ≤ (((k : α) * c : α) : WithBot α) := by
    intro al h1
    rw [WithBot.coe_le_coe]
    calc rscore S S g e f al k k
        ≤ (mmc al : α) * c := rscore_le_mmc S S g e c f hfb hg.le he.le al k k
      _ ≤ (k : α) * c := by
          refine mul_le_mul_of_nonneg_right ?_ hc
          exact_mod_cast (mmc_le_cons1 al).trans_eq h1
  obtain ⟨hM, hX, hY⟩ := dp_achievable S S g e f hge (k + k) k k le_rfl
  refine ⟨?_, ?_, ?_⟩
  · rcases hM with hb | ⟨al, _, h1, h2, hsc⟩
    · rw [hb] at hub
      exact absurd (le_bot_iff.mp hub) WithBot.coe_ne_bot
    · exact le_antisymm (hsc ▸ hbound al h1) hub
  · cases k with
    | zero =>
      rw [s_x_zero_zero, WithBot.coe_le_coe]
      unfold bnd
      push_cast
      nlinarith
    | succ k' =>
      rcases hX (by omega) with hb | ⟨al, _, h1, h2, hsc⟩
      · rw [hb]
        exact bot_le
      · exact hsc ▸ hbound al h1
  · cases k with
    | zero =>
      rw [s_y_zero_zero, WithBot.coe_le_coe]
      unfold bnd
      push_cast
      nlinarith
    | succ k' =>
      rcases hY (by omega) with hb | ⟨al, _, h1, h2, hsc⟩
      · rw [hb]
        exact bot_le
      · exact hsc ▸ hbound al h1

/-- Along the diagonal of a self-alignment the backpointer of the match
matrix always points back to the match matrix. -/
theorem b_m_diag (S : List α) (g e c : α) (f : α → α → α)
    (hge : g ≤ e) (hg : g < 0) (he : e < 0) (hc : 0 ≤ c)
    (hfd : ∀ x, f x x = c) (hfb : ∀ x y, f x y ≤ c) :
    ∀ k, k < S.length → b_m S S g e f (k + 1) (k + 1) = 0 := by
  intro k hk
  obtain ⟨hm, hx2, hy2⟩ := dp_diag S g e c f hge hg he hc hfd hfb k (by omega)
  rw [b_m_succ_succ]
  exact idx3_eq_zero_of
    (add_le_add_right (hx2.trans_eq hm.symm) _)
    (add_le_add_right (hy2.trans_eq hm.symm) _)

/-- With all diagonal match backpointers pointing to the match matrix,
the traceback from `(k, k)` in the match state walks the diagonal. -/
theorem tb_diag (S : List α) (g e : α) (f : α → α → α)
    (hb : ∀ k, k < S.length → b_m S S g e f (k + 1) (k + 1) = 0) :
    ∀ k fuel, k ≤ S.length → k ≤ fuel →
      tb S S (b_m S S g e f) (b_x S S g e f) (b_y S S g e f) fuel 0 k k =
        ((S.take k).reverse.map some, (S.take k).reverse.map some) := by
  intro k
  induction k with
  | zero =>
    intro fuel _ _
    cases fuel with
    | zero => rfl
    | succ fuel => rw [tb, if_pos ⟨rfl, rfl⟩]; rfl
  | succ k ih =>
    intro fuel hk hf
    obtain ⟨fuel', rfl⟩ : ∃ fuel', fuel = fuel' + 1 := ⟨fuel - 1, by omega⟩
    rw [tb, if_neg (by omega), if_pos rfl]
    simp only [Nat.add_sub_cancel]
    rw [hb k (by omega), ih fuel' (by omega) (by omega)]
    rw [take_succ_getD S k (by omega), List.reverse_append]
    rfl

/-- C6 amended: for a non-empty sequence `S`, penalties
`gap_open ≤ gap_ext < 0` and a match function with `f x x = c > 0` for
all `x` and `f x y ≤ c` for all `x, y`, aligning `S` with itself returns
score `c * len(S)` and both gap-annotated outputs equal `S` with no gap
markers. -/
theorem identity_alignment_of_bounded_match (S : List α) (g e c : α) (f : α → α → α)
    (hS : S ≠ []) (hg : g < 0) (he : e < 0) (hge : g ≤ e) (hc : 0 < c)
    (hfd : ∀ x, f x x = c) (hfb : ∀ x y, f x y ≤ c) :
    (glob_affine_gap S S g e f).1 = ((c * (S.length : α) : α) : WithBot α) ∧
    (glob_affine_gap S S g e f).2.1 = S.map some ∧
    (glob_affine_gap S S g e f).2.2 = S.map some := by
  obtain ⟨hm, hx2, hy2⟩ :=
    dp_diag S g e c f hge hg he hc.le hfd hfb S.length le_rfl
  have hst : idx3 (s_m S S g e f S.length S.length)
      (s_x S S g e f S.length S.length) (s_y S S g e f S.length S.length) = 0 :=
    idx3_eq_zero_of (hx2.trans_eq hm.symm) (hy2.trans_eq hm.symm)
  have htb := tb_diag S g e f
    (b_m_diag S g e c f hge hg he hc.le hfd hfb)
    S.length (S.length + S.length) le_rfl (by omega)
  refine ⟨?_, ?_, ?_⟩
  · show (if idx3 (s_m S S g e f S.length S.length) (s_x S S g e f S.length S.length)
        (s_y S S g e f S.length S.length) = 0
      then s_m S S g e f S.length S.length
      else if idx3 (s_m S S g e f S.length S.length) (s_x S S g e f S.length S.length)
        (s_y S S g e f S.length S.length) = 1
      then s_x S S g e f S.length S.length
      else s_y S S g e f S.length S.length) = _
    rw [hst, if_pos rfl, hm, mul_comm]
  · show (tb S S (b_m S S g e f) (b_x S S g e f) (b_y S S g e f)
      (S.length + S.length)
      (idx3 (s_m S S g e f S.length S.length) (s_x S S g e f S.length S.length)
        (s_y S S g e f S.length S.length)) S.length S.length).1.reverse = _
    rw [hst, htb]
    rw [← List.map_reverse, List.reverse_reverse, List.take_length]
  · show (tb S S (b_m S S g e f) (b_x S S g e f) (b_y S S g e f)
      (S.length + S.length)
      (idx3 (s_m S S g e f S.length S.length) (s_x S S g e f S.length S.length)
        (s_y S S g e f S.length S.length)) S.length S.length).2.reverse = _
    rw [hst, htb]
    rw [← List.map_reverse, List.reverse_reverse, List.take_length]

/-- Witness for `identity_alignment_of_bounded_match`. -/
theorem identity_alignment_witness :
    (glob_affine_gap ([5, 7] : List ℤ) [5, 7] (-2) (-1) (fun _ _ => 1)).1
      = (((1 : ℤ) * (2 : ℤ) : ℤ) : WithBot ℤ) :=
  (identity_alignment_of_bounded_match [5, 7] (-2) (-1) 1 (fun _ _ => 1)
    (by decide) (by norm_num) (by norm_num) (by norm_num) (by norm_num)
    (fun x => rfl) (fun x y => le_rfl)).1

end Identity
